import Mathlib

/-!
Distributed ranges: segmented inclusive scan, remote sub-ranges, device references.

A shallow embedding of

* `include/dr/details/remote_subrange.hpp`  (`lib::remote_subrange`),
* `include/dr/shp/device_ref.hpp`           (`shp::device_ref`),
* `include/dr/shp/algorithms/inclusive_scan.hpp` (`shp::inclusive_scan_impl_` and the
  six `shp::inclusive_scan` overloads),

followed by the properties proved about them.

Memory is one unified address space (USM pointers): an address is a natural number and a
memory maps every address to one element.  Iterators into a segment are addresses.
Undefined behaviour of the C++ code (an index outside the indexed sequence, a failed
`assert`) is an explicit error result.
-/

namespace lib

/-- The class `lib::remote_subrange<I>`: the base `rng::subrange(first, last)` and the
private member `rank_`. -/
structure remote_subrange where
  first : Nat
  last : Nat
  rank_ : Nat
deriving DecidableEq, Repr

namespace remote_subrange

/-- Accessor `rng::begin` of the base sub-range. -/
def begin_ (s : remote_subrange) : Nat := s.first

/-- Accessor `rng::end` of the base sub-range. -/
def end_ (s : remote_subrange) : Nat := s.last

/-- Member `rank()`. -/
def rank (s : remote_subrange) : Nat := s.rank_

/-- The value `std::distance(rng::begin(s), rng::end(s))`.  The C++ value is signed; an
inverted pair gives a non-positive distance there and `0` here, and both fail the same
`dist > 0` test. -/
def distance (s : remote_subrange) : Nat := s.end_ - s.begin_

/-- Constructor `remote_subrange(I first, I last, std::size_t rank)`. -/
def of_iterators (first last rank : Nat) : remote_subrange :=
  { first := first, last := last, rank_ := rank }

/-- Constructor `remote_subrange(R &&r, std::size_t rank)` from a forward range, given by
its `rng::begin` and `rng::end`. -/
def of_range (r : Nat × Nat) (rank : Nat) : remote_subrange :=
  { first := r.1, last := r.2, rank_ := rank }

/-- Constructor `remote_subrange(R &&r)` from a remote range: the rank is
`lib::ranges::rank(r)`. -/
def of_remote_range (r : remote_subrange) : remote_subrange :=
  { first := r.begin_, last := r.end_, rank_ := r.rank }

end remote_subrange

end lib

namespace shp

open lib

/-- Unified address space holding elements of type `α`. -/
abbrev Mem (α : Type) := Nat → α

/-- Store one element. -/
def Mem.store {α : Type} (m : Mem α) (p : Nat) (v : α) : Mem α :=
  fun a => if a = p then v else m a

/-- The elements at the `n` addresses starting at `p`. -/
def read_range {α : Type} (m : Mem α) (p : Nat) : Nat → List α
  | 0 => []
  | n + 1 => m p :: read_range m (p + 1) n

/-- Store the list `xs` at the addresses starting at `p`. -/
def write_range {α : Type} (m : Mem α) (p : Nat) (xs : List α) : Mem α :=
  fun a => if a < p then m a else (xs[a - p]?).getD (m a)

/-! ## device_ref -/

/-- The class `shp::device_ref<T>`: the private member `pointer_`. -/
structure device_ref where
  pointer_ : Nat
deriving DecidableEq, Repr

namespace device_ref

/-- The conversion `operator T() const`.  With `__SYCL_DEVICE_ONLY__` the pointer is
dereferenced; otherwise the element is copied (`q.memcpy(...).wait()`) into the local
staging `buffer`, which is then returned. -/
def read {α : Type} (sycl_device_only : Bool) (r : device_ref) (m : Mem α) : α :=
  if sycl_device_only then
    m r.pointer_
  else
    let buffer : α := m r.pointer_
    buffer

/-- The assignment `operator=(const T &value)`: the value is stored at `pointer_` (directly
on the device, through `q.memcpy(...).wait()` on the host) and `*this` is returned. -/
def assign {α : Type} (sycl_device_only : Bool) (r : device_ref) (value : α) (m : Mem α) :
    device_ref × Mem α :=
  if sycl_device_only then
    (r, m.store r.pointer_ value)
  else
    (r, m.store r.pointer_ value)

end device_ref

/-! ## Execution policies and errors -/

/-- The execution policies: the two host policies and `shp::device_policy`, which carries
the device list returned by `get_devices()`. -/
inductive execution_policy where
  | sequential
  | parallel_explicit
  | device_policy (devices : List Nat)
deriving DecidableEq, Repr

/-- Ways in which a call does not complete. -/
inductive scan_error where
  /-- The `static_assert` on the policy type, and the `assert(false)` of the else branch. -/
  | unsupported_policy
  /-- The `assert(dist > 0)`. -/
  | assertion_failed
  /-- An index outside the indexed sequence. -/
  | out_of_bounds
deriving DecidableEq, Repr

/-! ## The local algorithms of oneDPL -/

/-- The accumulation loop of an inclusive scan: every output is the combination of the
accumulator with the next input, left operand first. -/
def scan_from {α : Type} (op : α → α → α) : α → List α → List α
  | _, [] => []
  | acc, x :: xs => op acc x :: scan_from op (op acc x) xs

/-- The call `oneapi::dpl::experimental::inclusive_scan_async(policy, first, last, d_first,
binary_op)` on the values of `[first, last)`. -/
def dpl_inclusive_scan {α : Type} (op : α → α → α) : List α → List α
  | [] => []
  | x :: xs => x :: scan_from op x xs

/-- The call `inclusive_scan_async(policy, first, last, d_first, binary_op, init)`. -/
def dpl_inclusive_scan_init {α : Type} (op : α → α → α) (xs : List α) (init : α) : List α :=
  scan_from op init xs

/-! ## Distributed ranges -/

/-- A distributed contiguous range, given by `lib::ranges::segments`. -/
abbrev distributed_range := List remote_subrange

/-- Modelled from the spec: `shp::views::zip(r, o).zipped_segments()`, whose definition is
outside the three embedded headers.  The segment views of the ranges are paired
positionally, the i-th pair referring to the same global index sub-range in both. -/
def zipped_segments (r o : distributed_range) : List (remote_subrange × remote_subrange) :=
  List.zip r o

/-- The locals of `inclusive_scan_impl_` that change while it runs: the memory, the
`partial_sums` vector and the `events` vector (an event is recorded as the index of the
segment its task works on). -/
structure scan_state (α : Type) where
  mem : Mem α
  partial_sums : List α
  events : List Nat

/-- The local scan submitted for one segment: with the seed when `segment_id == 0 &&
init.has_value()`, without it otherwise. -/
def local_scan_values {α : Type} (op : α → α → α) (init : Option α) (segment_id : Nat)
    (xs : List α) : List α :=
  match segment_id, init with
  | 0, some v => dpl_inclusive_scan_init op xs v
  | _, _ => dpl_inclusive_scan op xs

/-- One iteration of the first loop of `inclusive_scan_impl_` (the body for one zipped
segment, with the current `segment_id`): the device lookup, `assert(dist > 0)`, the local
scan of the input segment into the memory at `d_first`, and the task that copies element
`dist - 1` of the output segment to `partial_sums[segment_id]`. -/
def local_scan_step {α : Type} (devices : List Nat) (op : α → α → α) (init : Option α)
    (segment_id : Nat) (segs : remote_subrange × remote_subrange) (st : scan_state α) :
    Except scan_error (scan_state α) :=
  let in_segment := segs.1
  let out_segment := segs.2
  match devices[in_segment.rank]? with
  | none => .error .out_of_bounds
  | some _ =>
    let dist := in_segment.distance
    if dist = 0 then .error .assertion_failed
    else
      let first := in_segment.begin_
      let d_first := out_segment.begin_
      let xs := read_range st.mem first dist
      let ys := local_scan_values op init segment_id xs
      let mem1 := write_range st.mem d_first ys
      if dist - 1 < out_segment.distance then
        let src_iter := out_segment.begin_ + (dist - 1)
        let value := mem1 src_iter
        if segment_id < st.partial_sums.length then
          .ok { mem := mem1
                partial_sums := st.partial_sums.set segment_id value
                events := st.events ++ [segment_id] }
        else .error .out_of_bounds
      else .error .out_of_bounds

/-- The first loop of `inclusive_scan_impl_`, from `segment_id` on. -/
def local_scan_loop {α : Type} (devices : List Nat) (op : α → α → α) (init : Option α) :
    Nat → List (remote_subrange × remote_subrange) → scan_state α →
    Except scan_error (scan_state α)
  | _, [], st => .ok st
  | segment_id, segs :: rest, st =>
    match local_scan_step devices op init segment_id segs st with
    | .error e => .error e
    | .ok st1 => local_scan_loop devices op init (segment_id + 1) rest st1

/-- The scan of `partial_sums` in place on the root device, after the events of the first
loop were waited for and cleared. -/
def carry_scan {α : Type} (op : α → α → α) (st : scan_state α) : scan_state α :=
  { mem := st.mem
    partial_sums := dpl_inclusive_scan op st.partial_sums
    events := [] }

/-- One iteration of the last loop of `inclusive_scan_impl_` (the body for one zipped
segment, with the current `idx`). -/
def carry_step {α : Type} (devices : List Nat) (op : α → α → α) (idx : Nat)
    (segs : remote_subrange × remote_subrange) (st : scan_state α) :
    Except scan_error (scan_state α) :=
  let out_segment := segs.2
  match devices[out_segment.rank]? with
  | none => .error .out_of_bounds
  | some _ =>
    if 0 < idx then
      match st.partial_sums[idx - 1]? with
      | none => .error .out_of_bounds
      | some sum =>
        let first := out_segment.begin_
        let xs := read_range st.mem first out_segment.distance
        .ok { mem := write_range st.mem first (xs.map (fun x => op x sum))
              partial_sums := st.partial_sums
              events := st.events ++ [idx] }
    else .ok st

/-- The last loop of `inclusive_scan_impl_`, from `idx` on. -/
def carry_loop {α : Type} (devices : List Nat) (op : α → α → α) :
    Nat → List (remote_subrange × remote_subrange) → scan_state α →
    Except scan_error (scan_state α)
  | _, [], st => .ok st
  | idx, segs :: rest, st =>
    match carry_step devices op idx segs st with
    | .error e => .error e
    | .ok st1 => carry_loop devices op (idx + 1) rest st1

/-- The state of `inclusive_scan_impl_` after the first loop: the root device is looked
up, `partial_sums` is allocated with one value-initialised slot per zipped segment, and
the first loop runs. -/
def local_scan_phase {α : Type} [Inhabited α] (devices : List Nat)
    (zs : List (remote_subrange × remote_subrange)) (op : α → α → α) (init : Option α)
    (m : Mem α) : Except scan_error (scan_state α) :=
  match devices[0]? with
  | none => .error .out_of_bounds
  | some _ =>
    local_scan_loop devices op init 0 zs
      { mem := m, partial_sums := List.replicate zs.length default, events := [] }

/-- The function `inclusive_scan_impl_`. -/
def inclusive_scan_impl_ {α : Type} [Inhabited α] (policy : execution_policy)
    (r o : distributed_range) (op : α → α → α) (init : Option α) (m : Mem α) :
    Except scan_error (Mem α) :=
  match policy with
  | .device_policy devices =>
    match local_scan_phase devices (zipped_segments r o) op init m with
    | .error e => .error e
    | .ok st1 =>
      match carry_loop devices op 0 (zipped_segments r o) (carry_scan op st1) with
      | .error e => .error e
      | .ok st3 => .ok st3.mem
  | _ => .error .unsupported_policy

/-- The overload `inclusive_scan(policy, r, o, binary_op, init)`. -/
def inclusive_scan_op_init {α : Type} [Inhabited α] (policy : execution_policy)
    (r o : distributed_range) (op : α → α → α) (init : α) (m : Mem α) :
    Except scan_error (Mem α) :=
  inclusive_scan_impl_ policy r o op (some init) m

/-- The overload `inclusive_scan(policy, r, o, binary_op)`. -/
def inclusive_scan_op {α : Type} [Inhabited α] (policy : execution_policy)
    (r o : distributed_range) (op : α → α → α) (m : Mem α) : Except scan_error (Mem α) :=
  inclusive_scan_impl_ policy r o op none m

/-- The overload `inclusive_scan(policy, r, o)`: the operator is `std::plus<>()`. -/
def inclusive_scan {α : Type} [Inhabited α] [Add α] (policy : execution_policy)
    (r o : distributed_range) (m : Mem α) : Except scan_error (Mem α) :=
  inclusive_scan_op policy r o (fun a b => a + b) m

/-! ## Layout of the segments in memory -/

/-- Address `a` lies in the window `[begin, end)` of `s`. -/
def in_window (s : remote_subrange) (a : Nat) : Prop := s.begin_ ≤ a ∧ a < s.end_

/-- The elements of segment `s`. -/
def read_segment {α : Type} (m : Mem α) (s : remote_subrange) : List α :=
  read_range m s.begin_ s.distance

/-- The elements of a distributed range, segment after segment. -/
def read_segments {α : Type} (m : Mem α) (r : distributed_range) : List (List α) :=
  r.map (read_segment m)

/-- The elements of a distributed range in global order. -/
def read_all {α : Type} (m : Mem α) (r : distributed_range) : List α :=
  (read_segments m r).flatten

/-- The two windows share no address. -/
def disjoint_segments (a b : remote_subrange) : Prop :=
  a.end_ ≤ a.begin_ ∨ b.end_ ≤ b.begin_ ∨ a.end_ ≤ b.begin_ ∨ b.end_ ≤ a.begin_

instance (a b : remote_subrange) : Decidable (disjoint_segments a b) := by
  unfold disjoint_segments; infer_instance

/-- Two zipped segments do not interfere: their outputs are apart and the output of each
is apart from the input of the other. -/
def separate_segments (a b : remote_subrange × remote_subrange) : Prop :=
  disjoint_segments a.2 b.2 ∧ disjoint_segments a.2 b.1 ∧ disjoint_segments b.2 a.1

instance (a b : remote_subrange × remote_subrange) : Decidable (separate_segments a b) := by
  unfold separate_segments; infer_instance

/-- The standing preconditions of a call on the zipped segments `zs` with the device list
`devices`: there is a root device, every rank names a device, the two segments of a pair
have the same length, and distinct pairs do not interfere. -/
def layout_ok (devices : List Nat) (zs : List (remote_subrange × remote_subrange)) : Prop :=
  0 < devices.length ∧
  (∀ z ∈ zs, z.1.rank < devices.length ∧ z.2.rank < devices.length) ∧
  (∀ z ∈ zs, z.1.distance = z.2.distance) ∧
  zs.Pairwise separate_segments

instance (devices : List Nat) (zs : List (remote_subrange × remote_subrange)) :
    Decidable (layout_ok devices zs) := by
  unfold layout_ok; infer_instance

/-- Every input segment has at least one element. -/
def segments_nonempty (zs : List (remote_subrange × remote_subrange)) : Prop :=
  ∀ z ∈ zs, 0 < z.1.distance

instance (zs : List (remote_subrange × remote_subrange)) : Decidable (segments_nonempty zs) := by
  unfold segments_nonempty; infer_instance

/-! ## The three phases on values -/

/-- The last element of a list (the default value for the empty list). -/
def last_value {α : Type} [Inhabited α] (ys : List α) : α := (ys.getLast?).getD default

/-- The values of an output segment after the last loop handled it with index `idx`: left
alone for index `0`, every element combined with `partial_sums[idx - 1]` on its right
otherwise. -/
def carry_values {α : Type} (op : α → α → α) (ps : List α) (idx : Nat) (ys : List α) :
    List α :=
  match idx with
  | 0 => ys
  | j + 1 =>
    match ps[j]? with
    | some sum => ys.map (fun x => op x sum)
    | none => ys

/-- The local scans of the first loop on the values of the input segments, the first of
which has index `k`. -/
def local_values {α : Type} (op : α → α → α) (init : Option α) :
    Nat → List (List α) → List (List α)
  | _, [] => []
  | k, xs :: rest => local_scan_values op init k xs :: local_values op init (k + 1) rest

/-- The last loop on the values of the output segments, the first of which has index
`k`. -/
def carried_values {α : Type} (op : α → α → α) (ps : List α) :
    Nat → List (List α) → List (List α)
  | _, [] => []
  | k, ys :: rest => carry_values op ps k ys :: carried_values op ps (k + 1) rest

/-- The values of `partial_sums` after the first loop. -/
def segment_lasts {α : Type} [Inhabited α] (op : α → α → α) (init : Option α)
    (xss : List (List α)) : List α :=
  (local_values op init 0 xss).map last_value

/-- The values of the output segments after the three phases, from the values of the
input segments. -/
def stitched_values {α : Type} [Inhabited α] (op : α → α → α) (init : Option α)
    (xss : List (List α)) : List (List α) :=
  carried_values op (dpl_inclusive_scan op (segment_lasts op init xss)) 0
    (local_values op init 0 xss)

/-- The inclusive scan of a single-locale sequence, as `std::inclusive_scan` defines it:
the accumulator starts as the seed (or is absent), and every output is the accumulator
combined with the next input. -/
def sequential_scan {α : Type} (op : α → α → α) : Option α → List α → List α
  | _, [] => []
  | none, x :: xs => x :: sequential_scan op (some x) xs
  | some acc, x :: xs => op acc x :: sequential_scan op (some (op acc x)) xs

/-- The combination of all elements of a non-empty segment, in order. -/
def segment_total {α : Type} [Inhabited α] (op : α → α → α) (xs : List α) : α :=
  last_value (dpl_inclusive_scan op xs)

/-! ## Distributed iterators and the iterator overloads -/

/-- Modelled from the spec: a distributed iterator (the concept `lib::distributed_iterator`
is defined outside the three embedded headers).  It is a position in the global index
space of a distributed container, together with the segments of that container. -/
structure distributed_iterator where
  segments : distributed_range
  index : Nat
deriving DecidableEq, Repr

namespace distributed_iterator

/-- The value `std::distance(first, last)` of two iterators into the same container. -/
def distance (first last : distributed_iterator) : Nat := last.index - first.index

/-- The effect of `std::advance(it, n)`. -/
def advance (it : distributed_iterator) (n : Nat) : distributed_iterator :=
  { segments := it.segments, index := it.index + n }

end distributed_iterator

/-- Modelled from the spec: the part of a segment list from global position `n` on (the
segment tools of the repository are outside the three embedded headers). -/
def drop_segments : distributed_range → Nat → distributed_range
  | [], _ => []
  | s :: rest, n =>
    if n < s.distance then remote_subrange.of_iterators (s.begin_ + n) s.end_ s.rank :: rest
    else drop_segments rest (n - s.distance)

/-- Modelled from the spec: the first `n` global positions of a segment list, as views of
the segments that hold them: whole segments while `n` exceeds their length, then the
leading `n` positions of the next segment (a view of length `n`, also when `n = 0`). -/
def take_segments : distributed_range → Nat → distributed_range
  | [], _ => []
  | s :: rest, n =>
    if n ≤ s.distance then [remote_subrange.of_iterators s.begin_ (s.begin_ + n) s.rank]
    else s :: take_segments rest (n - s.distance)

/-- Modelled from the spec: the segments of `rng::subrange(first, last)`, the ordered views
that cover the global index window `[first, last)` exactly once. -/
def subrange (first last : distributed_iterator) : distributed_range :=
  take_segments (drop_segments first.segments first.index) (first.distance last)

/-- The overload `inclusive_scan(policy, first, last, d_first, binary_op, init)`. -/
def inclusive_scan_iter_op_init {α : Type} [Inhabited α] (policy : execution_policy)
    (first last d_first : distributed_iterator) (op : α → α → α) (init : α) (m : Mem α) :
    Except scan_error (distributed_iterator × Mem α) :=
  let dist := first.distance last
  let d_last := d_first.advance dist
  match inclusive_scan_op_init policy (subrange first last) (subrange d_first d_last)
      op init m with
  | .error e => .error e
  | .ok m1 => .ok (d_last, m1)

/-- The overload `inclusive_scan(policy, first, last, d_first, binary_op)`. -/
def inclusive_scan_iter_op {α : Type} [Inhabited α] (policy : execution_policy)
    (first last d_first : distributed_iterator) (op : α → α → α) (m : Mem α) :
    Except scan_error (distributed_iterator × Mem α) :=
  let dist := first.distance last
  let d_last := d_first.advance dist
  match inclusive_scan_op policy (subrange first last) (subrange d_first d_last) op m with
  | .error e => .error e
  | .ok m1 => .ok (d_last, m1)

/-- The overload `inclusive_scan(policy, first, last, d_first)`. -/
def inclusive_scan_iter {α : Type} [Inhabited α] [Add α] (policy : execution_policy)
    (first last d_first : distributed_iterator) (m : Mem α) :
    Except scan_error (distributed_iterator × Mem α) :=
  let dist := first.distance last
  let d_last := d_first.advance dist
  match inclusive_scan policy (subrange first last) (subrange d_first d_last) m with
  | .error e => .error e
  | .ok m1 => .ok (d_last, m1)

/-! ## Schedules, combinations and sequences of device references -/

/-- The tasks of the first loop of `inclusive_scan_impl_` run to completion in a given
order: every task is the loop body for one zipped segment together with the `segment_id`
it was submitted with. -/
def local_scan_schedule {α : Type} (devices : List Nat) (op : α → α → α) (init : Option α) :
    List (Nat × (remote_subrange × remote_subrange)) → scan_state α →
    Except scan_error (scan_state α)
  | [], st => .ok st
  | task :: rest, st =>
    match local_scan_step devices op init task.1 task.2 st with
    | .error e => .error e
    | .ok st1 => local_scan_schedule devices op init rest st1

/-- The state in which the first loop of `inclusive_scan_impl_` starts. -/
def initial_state {α : Type} [Inhabited α] (zs : List (remote_subrange × remote_subrange))
    (m : Mem α) : scan_state α :=
  { mem := m, partial_sums := List.replicate zs.length default, events := [] }

/-- The combination, in order, of the elements of a sequence, left to right; the empty
sequence has none. -/
def combine {α : Type} (op : α → α → α) : List α → Option α
  | [] => none
  | x :: xs => some (xs.foldl op x)

namespace device_ref

/-- Assign the values `vs`, one after the other, through `device_ref(p)` for the
positions `p` of `ps`. -/
def assign_each {α : Type} (sycl_device_only : Bool) : List Nat → List α → Mem α → Mem α
  | p :: ps, v :: vs, m =>
    assign_each sycl_device_only ps vs (assign sycl_device_only (device_ref.mk p) v m).2
  | _, _, m => m

/-- Read through `device_ref(p)` for the positions `p` of `ps`, one after the other. -/
def read_each {α : Type} (sycl_device_only : Bool) (ps : List Nat) (m : Mem α) : List α :=
  ps.map (fun p => read sycl_device_only (device_ref.mk p) m)

end device_ref

/-! ## Example data -/

/-- Two devices. -/
def example_devices : List Nat := [0, 1]

/-- The values `1, …, 8` at the addresses `0, …, 7`, zero elsewhere. -/
def example_mem : Mem Int := fun a => if a < 8 then (a : Int) + 1 else 0

/-- The input `[1, …, 8]` as two segments of length 4. -/
def example_in : distributed_range :=
  [remote_subrange.of_iterators 0 4 0, remote_subrange.of_iterators 4 8 1]

/-- An output range segmented like `example_in`. -/
def example_out : distributed_range :=
  [remote_subrange.of_iterators 8 12 0, remote_subrange.of_iterators 12 16 1]

/-- The value `100` at address `0` and `1, …, 8` at the addresses `1, …, 8`. -/
def example_mem_seeded : Mem Int :=
  fun a => if a = 0 then 100 else if a < 9 then (a : Int) else 0

/-- The input `[100, 1, …, 8]`: `example_in` with `100` prepended to its first segment. -/
def example_in_seeded : distributed_range :=
  [remote_subrange.of_iterators 0 5 0, remote_subrange.of_iterators 5 9 1]

/-- An output range segmented like `example_in_seeded`. -/
def example_out_seeded : distributed_range :=
  [remote_subrange.of_iterators 10 15 0, remote_subrange.of_iterators 15 19 1]

/-- An input whose second segment is empty. -/
def example_in_gap : distributed_range :=
  [remote_subrange.of_iterators 0 4 0, remote_subrange.of_iterators 4 4 1]

/-- An output range segmented like `example_in_gap`. -/
def example_out_gap : distributed_range :=
  [remote_subrange.of_iterators 8 12 0, remote_subrange.of_iterators 12 12 1]

/-- The two tasks of the first loop on `example_in` and `example_out`, last segment
first. -/
def example_tasks_reversed : List (Nat × (remote_subrange × remote_subrange)) :=
  [(1, (remote_subrange.of_iterators 4 8 1, remote_subrange.of_iterators 12 16 1)),
   (0, (remote_subrange.of_iterators 0 4 0, remote_subrange.of_iterators 8 12 0))]

/-- An empty input (`n = 0`) given as one segment of length 0. -/
def example_in_empty : distributed_range := [remote_subrange.of_iterators 3 3 0]

/-- An output range segmented like `example_in_empty`. -/
def example_out_empty : distributed_range := [remote_subrange.of_iterators 11 11 0]

/-- An associative operator that is not commutative: it returns its left operand. -/
def left_operand (a _b : Int) : Int := a

/-! ## Memory lemmas -/

theorem read_range_length {α : Type} (m : Mem α) (p n : Nat) :
    (read_range m p n).length = n := by
  induction n generalizing p with
  | zero => rfl
  | succ n ih => simp [read_range, ih]

theorem read_range_getElem? {α : Type} (m : Mem α) (p n i : Nat) (h : i < n) :
    (read_range m p n)[i]? = some (m (p + i)) := by
  induction n generalizing p i with
  | zero => omega
  | succ n ih =>
    cases i with
    | zero => simp [read_range]
    | succ i =>
      simp only [read_range, List.getElem?_cons_succ]
      rw [ih (p + 1) i (by omega)]
      congr 2
      omega

theorem read_range_congr {α : Type} (m1 m2 : Mem α) (p n : Nat)
    (h : ∀ a, p ≤ a → a < p + n → m1 a = m2 a) :
    read_range m1 p n = read_range m2 p n := by
  induction n generalizing p with
  | zero => rfl
  | succ n ih =>
    simp only [read_range]
    rw [h p (le_refl p) (by omega), ih (p + 1) (fun a h1 h2 => h a (by omega) (by omega))]

theorem write_range_outside {α : Type} (m : Mem α) (p : Nat) (xs : List α) (a : Nat)
    (h : a < p ∨ p + xs.length ≤ a) : write_range m p xs a = m a := by
  unfold write_range
  by_cases h1 : a < p
  · simp [h1]
  · have h2 : xs.length ≤ a - p := by omega
    simp [h1, List.getElem?_eq_none h2]

theorem write_range_inside {α : Type} (m : Mem α) (p : Nat) (xs : List α) (i : Nat) (x : α)
    (h : xs[i]? = some x) : write_range m p xs (p + i) = x := by
  unfold write_range
  have h1 : ¬ (p + i < p) := by omega
  simp [h1, h]

theorem read_write_range {α : Type} (m : Mem α) (p : Nat) (xs : List α) :
    read_range (write_range m p xs) p xs.length = xs := by
  apply List.ext_getElem?
  intro i
  by_cases h : i < xs.length
  · rw [read_range_getElem? _ _ _ _ h]
    have hx : xs[i]? = some xs[i] := List.getElem?_eq_getElem h
    rw [write_range_inside m p xs i xs[i] hx, hx]
  · have h1 : xs.length ≤ i := by omega
    rw [List.getElem?_eq_none h1, List.getElem?_eq_none (by rw [read_range_length]; exact h1)]

/-! ## The first loop -/

theorem scan_from_length {α : Type} (op : α → α → α) (acc : α) (xs : List α) :
    (scan_from op acc xs).length = xs.length := by
  induction xs generalizing acc with
  | nil => rfl
  | cons x xs ih => simp [scan_from, ih]

theorem dpl_inclusive_scan_length {α : Type} (op : α → α → α) (xs : List α) :
    (dpl_inclusive_scan op xs).length = xs.length := by
  cases xs with
  | nil => rfl
  | cons x xs => simp [dpl_inclusive_scan, scan_from_length]

theorem local_scan_values_length {α : Type} (op : α → α → α) (init : Option α) (k : Nat)
    (xs : List α) : (local_scan_values op init k xs).length = xs.length := by
  unfold local_scan_values
  split
  · simp [dpl_inclusive_scan_init, scan_from_length]
  · exact dpl_inclusive_scan_length op xs

theorem getElem?_last_value {α : Type} [Inhabited α] (ys : List α) (h : 0 < ys.length) :
    ys[ys.length - 1]? = some (last_value ys) := by
  unfold last_value
  rw [List.getLast?_eq_getElem?]
  have h1 : ys.length - 1 < ys.length := by omega
  rw [List.getElem?_eq_getElem h1]
  rfl

theorem local_scan_step_ok {α : Type} [Inhabited α] (devices : List Nat) (op : α → α → α)
    (init : Option α) (k : Nat) (segs : remote_subrange × remote_subrange)
    (st : scan_state α) (hr : segs.1.rank < devices.length) (hpos : 0 < segs.1.distance)
    (hsz : segs.1.distance = segs.2.distance) (hk : k < st.partial_sums.length) :
    local_scan_step devices op init k segs st = .ok
      { mem := write_range st.mem segs.2.begin_
          (local_scan_values op init k (read_segment st.mem segs.1))
        partial_sums := st.partial_sums.set k
          (last_value (local_scan_values op init k (read_segment st.mem segs.1)))
        events := st.events ++ [k] } := by
  have hlen : (local_scan_values op init k (read_segment st.mem segs.1)).length
      = segs.1.distance := by
    rw [local_scan_values_length]; exact read_range_length _ _ _
  have hlast := getElem?_last_value (local_scan_values op init k (read_segment st.mem segs.1))
    (by omega)
  rw [hlen] at hlast
  have hv := write_range_inside st.mem segs.2.begin_ _ _ _ hlast
  unfold local_scan_step
  simp only [List.getElem?_eq_getElem hr]
  have h0 : ¬ (segs.1.distance = 0) := by omega
  have h1 : segs.1.distance - 1 < segs.2.distance := by omega
  simp only [h0, h1, hk, if_true, if_false]
  unfold read_segment at hv
  rw [hv]
  rfl

theorem not_in_window_of_disjoint (a b : remote_subrange) (x : Nat)
    (h : disjoint_segments a b) (hx : in_window a x) : ¬ in_window b x := by
  unfold disjoint_segments at h
  unfold in_window at *
  omega

theorem disjoint_segments_symm (a b : remote_subrange) (h : disjoint_segments a b) :
    disjoint_segments b a := by
  unfold disjoint_segments at *
  omega

theorem read_segment_frame {α : Type} (m1 m2 : Mem α) (s : remote_subrange)
    (h : ∀ a, in_window s a → m1 a = m2 a) : read_segment m1 s = read_segment m2 s := by
  unfold read_segment
  apply read_range_congr
  intro a h1 h2
  apply h
  unfold in_window
  unfold remote_subrange.distance at h2
  omega

theorem write_range_frame {α : Type} (m : Mem α) (out : remote_subrange) (ys : List α)
    (hys : ys.length = out.distance) (a : Nat) (ha : ¬ in_window out a) :
    write_range m out.begin_ ys a = m a := by
  apply write_range_outside
  unfold in_window at ha
  unfold remote_subrange.distance at hys
  omega

theorem read_segment_write_disjoint {α : Type} (m : Mem α) (out s : remote_subrange)
    (ys : List α) (hys : ys.length = out.distance) (h : disjoint_segments out s) :
    read_segment (write_range m out.begin_ ys) s = read_segment m s := by
  apply read_segment_frame
  intro a ha
  apply write_range_frame m out ys hys
  exact not_in_window_of_disjoint s out a (disjoint_segments_symm _ _ h) ha

theorem read_segment_write_same {α : Type} (m : Mem α) (out : remote_subrange)
    (ys : List α) (hys : ys.length = out.distance) :
    read_segment (write_range m out.begin_ ys) out = ys := by
  unfold read_segment
  rw [← hys]
  exact read_write_range m out.begin_ ys

theorem local_scan_loop_spec {α : Type} [Inhabited α] (devices : List Nat) (op : α → α → α)
    (init : Option α) (zs : List (remote_subrange × remote_subrange)) (k : Nat)
    (st : scan_state α)
    (hr : ∀ z ∈ zs, z.1.rank < devices.length)
    (hpos : ∀ z ∈ zs, 0 < z.1.distance)
    (hsz : ∀ z ∈ zs, z.1.distance = z.2.distance)
    (hsep : zs.Pairwise separate_segments)
    (hk : k + zs.length ≤ st.partial_sums.length) :
    ∃ st1, local_scan_loop devices op init k zs st = .ok st1 ∧
      (∀ a, (∀ z ∈ zs, ¬ in_window z.2 a) → st1.mem a = st.mem a) ∧
      (∀ i z, zs[i]? = some z → read_segment st1.mem z.2
          = local_scan_values op init (k + i) (read_segment st.mem z.1)) ∧
      st1.partial_sums.length = st.partial_sums.length ∧
      (∀ i z, zs[i]? = some z → st1.partial_sums[k + i]?
          = some (last_value (local_scan_values op init (k + i) (read_segment st.mem z.1)))) ∧
      (∀ j, j < k ∨ k + zs.length ≤ j → st1.partial_sums[j]? = st.partial_sums[j]?) ∧
      st1.events = st.events ++ List.range' k zs.length := by
  induction zs generalizing k st with
  | nil =>
    refine ⟨st, rfl, fun _ _ => rfl, ?_, rfl, ?_, fun _ _ => rfl, by simp⟩
    · intro i z h; simp at h
    · intro i z h; simp at h
  | cons z rest ih =>
    have hz_r := hr z (List.mem_cons_self _ _)
    have hz_pos := hpos z (List.mem_cons_self _ _)
    have hz_sz := hsz z (List.mem_cons_self _ _)
    rw [List.pairwise_cons] at hsep
    obtain ⟨hsep_z, hsep_rest⟩ := hsep
    simp only [List.length_cons] at hk
    have hstep := local_scan_step_ok devices op init k z st hz_r hz_pos hz_sz (by omega)
    have hlen : (local_scan_values op init k (read_segment st.mem z.1)).length
        = z.2.distance := by
      rw [local_scan_values_length, ← hz_sz]; exact read_range_length _ _ _
    obtain ⟨st1, hloop, hframe, houts, hpl, hpv, hpo, hev⟩ :=
      ih (k + 1)
        { mem := write_range st.mem z.2.begin_
            (local_scan_values op init k (read_segment st.mem z.1))
          partial_sums := st.partial_sums.set k
            (last_value (local_scan_values op init k (read_segment st.mem z.1)))
          events := st.events ++ [k] }
        (fun w hw => hr w (List.mem_cons_of_mem _ hw))
        (fun w hw => hpos w (List.mem_cons_of_mem _ hw))
        (fun w hw => hsz w (List.mem_cons_of_mem _ hw)) hsep_rest
        (by simp only [List.length_set]; omega)
    dsimp only at hframe houts hpl hpv hpo hev
    refine ⟨st1, ?_, ?_, ?_, ?_, ?_, ?_, ?_⟩
    · simp only [local_scan_loop, hstep]
      exact hloop
    · intro a ha
      rw [hframe a (fun w hw => ha w (List.mem_cons_of_mem _ hw))]
      exact write_range_frame st.mem z.2 _ hlen a (ha z (List.mem_cons_self _ _))
    · intro i w hw
      cases i with
      | zero =>
        simp only [List.getElem?_cons_zero, Option.some.injEq] at hw
        subst hw
        rw [read_segment_frame st1.mem _ z.2 (fun a ha => hframe a (fun w hw =>
          not_in_window_of_disjoint z.2 w.2 a (hsep_z w hw).1 ha))]
        exact read_segment_write_same st.mem z.2 _ hlen
      | succ i =>
        simp only [List.getElem?_cons_succ] at hw
        have hmem : w ∈ rest := List.getElem?_mem hw
        rw [houts i w hw, read_segment_write_disjoint st.mem z.2 w.1 _ hlen (hsep_z w hmem).2.1]
        congr 1
        omega
    · rw [hpl]; simp
    · intro i w hw
      cases i with
      | zero =>
        simp only [List.getElem?_cons_zero, Option.some.injEq] at hw
        subst hw
        simp only [Nat.add_zero]
        rw [hpo k (Or.inl (by omega))]
        rw [List.getElem?_set_self (by omega)]
      | succ i =>
        simp only [List.getElem?_cons_succ] at hw
        have hmem : w ∈ rest := List.getElem?_mem hw
        have := hpv i w hw
        rw [read_segment_write_disjoint st.mem z.2 w.1 _ hlen (hsep_z w hmem).2.1] at this
        rw [show k + (i + 1) = k + 1 + i by omega]
        exact this
    · intro j hj
      simp only [List.length_cons] at hj
      rw [hpo j (by omega)]
      rw [List.getElem?_set_ne (by omega)]
    · rw [hev]
      simp [List.range'_succ]

/-! ## The last loop -/

theorem carry_values_length {α : Type} (op : α → α → α) (ps : List α) (idx : Nat)
    (ys : List α) : (carry_values op ps idx ys).length = ys.length := by
  unfold carry_values
  split
  · rfl
  · split <;> simp

theorem carry_step_ok {α : Type} (devices : List Nat) (op : α → α → α) (idx : Nat)
    (segs : remote_subrange × remote_subrange) (st : scan_state α)
    (hr : segs.2.rank < devices.length) (hk : idx ≤ st.partial_sums.length) :
    carry_step devices op idx segs st = .ok
      { mem := write_range st.mem segs.2.begin_
          (carry_values op st.partial_sums idx (read_segment st.mem segs.2))
        partial_sums := st.partial_sums
        events := st.events ++ (if 0 < idx then [idx] else []) } ∨
    (idx = 0 ∧ carry_step devices op idx segs st = .ok st) := by
  unfold carry_step
  simp only [List.getElem?_eq_getElem hr]
  cases idx with
  | zero => right; simp
  | succ j =>
    left
    have hj : j < st.partial_sums.length := by omega
    simp only [Nat.zero_lt_succ, if_true, Nat.add_sub_cancel, List.getElem?_eq_getElem hj,
      carry_values]
    rfl

theorem carry_loop_spec {α : Type} (devices : List Nat) (op : α → α → α)
    (zs : List (remote_subrange × remote_subrange)) (idx : Nat) (st : scan_state α)
    (hr : ∀ z ∈ zs, z.2.rank < devices.length)
    (hsep : zs.Pairwise separate_segments)
    (hk : idx + zs.length ≤ st.partial_sums.length + 1) :
    ∃ st1, carry_loop devices op idx zs st = .ok st1 ∧
      (∀ a, (∀ z ∈ zs, ¬ in_window z.2 a) → st1.mem a = st.mem a) ∧
      (∀ i z, zs[i]? = some z → read_segment st1.mem z.2
          = carry_values op st.partial_sums (idx + i) (read_segment st.mem z.2)) ∧
      st1.partial_sums = st.partial_sums ∧
      st1.events = st.events ++ (List.range' idx zs.length).filter (fun i => 0 < i) := by
  induction zs generalizing idx st with
  | nil =>
    refine ⟨st, rfl, fun _ _ => rfl, ?_, rfl, by simp⟩
    intro i z h; simp at h
  | cons z rest ih =>
    have hz_r := hr z (List.mem_cons_self _ _)
    rw [List.pairwise_cons] at hsep
    obtain ⟨hsep_z, hsep_rest⟩ := hsep
    simp only [List.length_cons] at hk
    have hlen : (carry_values op st.partial_sums idx (read_segment st.mem z.2)).length
        = z.2.distance := by
      rw [carry_values_length]; exact read_range_length _ _ _
    rcases carry_step_ok devices op idx z st hz_r (by omega) with hstep | ⟨h0, hstep⟩
    · obtain ⟨st1, hloop, hframe, houts, hps, hev⟩ :=
        ih (idx + 1)
          { mem := write_range st.mem z.2.begin_
              (carry_values op st.partial_sums idx (read_segment st.mem z.2))
            partial_sums := st.partial_sums
            events := st.events ++ (if 0 < idx then [idx] else []) }
          (fun w hw => hr w (List.mem_cons_of_mem _ hw)) hsep_rest (by simp only; omega)
      dsimp only at hframe houts hps hev
      refine ⟨st1, ?_, ?_, ?_, hps, ?_⟩
      · simp only [carry_loop, hstep]
        exact hloop
      · intro a ha
        rw [hframe a (fun w hw => ha w (List.mem_cons_of_mem _ hw))]
        exact write_range_frame st.mem z.2 _ hlen a (ha z (List.mem_cons_self _ _))
      · intro i w hw
        cases i with
        | zero =>
          simp only [List.getElem?_cons_zero, Option.some.injEq] at hw
          subst hw
          rw [read_segment_frame st1.mem _ z.2 (fun a ha => hframe a (fun w hw =>
            not_in_window_of_disjoint z.2 w.2 a (hsep_z w hw).1 ha))]
          exact read_segment_write_same st.mem z.2 _ hlen
        | succ i =>
          simp only [List.getElem?_cons_succ] at hw
          have hmem : w ∈ rest := List.getElem?_mem hw
          rw [houts i w hw, read_segment_write_disjoint st.mem z.2 w.2 _ hlen (hsep_z w hmem).1]
          congr 1
          omega
      · rw [hev]
        by_cases h0 : 0 < idx <;> simp [List.range'_succ, h0, List.filter_cons]
    · subst h0
      obtain ⟨st1, hloop, hframe, houts, hps, hev⟩ :=
        ih 1 st (fun w hw => hr w (List.mem_cons_of_mem _ hw)) hsep_rest (by omega)
      refine ⟨st1, ?_, ?_, ?_, hps, ?_⟩
      · simp only [carry_loop, hstep]
        exact hloop
      · intro a ha
        exact hframe a (fun w hw => ha w (List.mem_cons_of_mem _ hw))
      · intro i w hw
        cases i with
        | zero =>
          simp only [List.getElem?_cons_zero, Option.some.injEq] at hw
          subst hw
          rw [read_segment_frame st1.mem st.mem z.2 (fun a ha => hframe a (fun w hw =>
            not_in_window_of_disjoint z.2 w.2 a (hsep_z w hw).1 ha))]
          rfl
        | succ i =>
          simp only [List.getElem?_cons_succ] at hw
          rw [houts i w hw]
          congr 1
          omega
      · rw [hev]
        simp [List.range'_succ, List.filter_cons]

theorem local_values_getElem? {α : Type} (op : α → α → α) (init : Option α) (k : Nat)
    (xss : List (List α)) (i : Nat) :
    (local_values op init k xss)[i]? = (xss[i]?).map (local_scan_values op init (k + i)) := by
  induction xss generalizing k i with
  | nil => simp [local_values]
  | cons xs rest ih =>
    cases i with
    | zero => simp [local_values]
    | succ i =>
      simp only [local_values, List.getElem?_cons_succ, ih]
      rw [show k + 1 + i = k + (i + 1) by omega]

theorem carried_values_getElem? {α : Type} (op : α → α → α) (ps : List α) (k : Nat)
    (yss : List (List α)) (i : Nat) :
    (carried_values op ps k yss)[i]? = (yss[i]?).map (carry_values op ps (k + i)) := by
  induction yss generalizing k i with
  | nil => simp [carried_values]
  | cons ys rest ih =>
    cases i with
    | zero => simp [carried_values]
    | succ i =>
      simp only [carried_values, List.getElem?_cons_succ, ih]
      rw [show k + 1 + i = k + (i + 1) by omega]

theorem local_values_length {α : Type} (op : α → α → α) (init : Option α) (k : Nat)
    (xss : List (List α)) : (local_values op init k xss).length = xss.length := by
  induction xss generalizing k with
  | nil => rfl
  | cons xs rest ih => simp [local_values, ih]

/-- The first loop, started as `inclusive_scan_impl_` starts it, succeeds on a well laid
out list of non-empty segments; afterwards every output segment holds the local scan of
its input segment, `partial_sums` holds the last values of these scans, and memory outside
the output segments is as before. -/
theorem local_scan_phase_spec {α : Type} [Inhabited α] (devices : List Nat)
    (zs : List (remote_subrange × remote_subrange)) (op : α → α → α) (init : Option α)
    (m : Mem α) (hlay : layout_ok devices zs) (hne : segments_nonempty zs) :
    ∃ st1, local_scan_phase devices zs op init m = .ok st1 ∧
      (∀ a, (∀ z ∈ zs, ¬ in_window z.2 a) → st1.mem a = m a) ∧
      read_segments st1.mem (zs.map Prod.snd)
        = local_values op init 0 (read_segments m (zs.map Prod.fst)) ∧
      st1.partial_sums = segment_lasts op init (read_segments m (zs.map Prod.fst)) ∧
      st1.events = List.range' 0 zs.length := by
  obtain ⟨hdev, hranks, hsizes, hsep⟩ := hlay
  obtain ⟨st1, hloop, hframe, houts, hpl, hpv, -, hev⟩ :=
    local_scan_loop_spec devices op init zs 0
      { mem := m, partial_sums := List.replicate zs.length default, events := [] }
      (fun z hz => (hranks z hz).1) hne hsizes hsep (by simp)
  dsimp only at hframe houts hpl hpv hev
  refine ⟨st1, ?_, hframe, ?_, ?_, by simpa using hev⟩
  · unfold local_scan_phase
    rw [List.getElem?_eq_getElem hdev]
    exact hloop
  · apply List.ext_getElem?
    intro i
    unfold read_segments
    rw [local_values_getElem?]
    simp only [List.getElem?_map, Option.map_map]
    cases hz : zs[i]? with
    | none => rfl
    | some z =>
      simp only [Option.map_some', Function.comp]
      rw [houts i z hz]
  · apply List.ext_getElem?
    intro i
    unfold segment_lasts read_segments
    rw [List.getElem?_map, local_values_getElem?]
    simp only [List.getElem?_map, Option.map_map]
    cases hz : zs[i]? with
    | none =>
      simp only [Option.map_none']
      apply List.getElem?_eq_none
      rw [hpl, List.length_replicate]
      have := List.getElem?_eq_none_iff.mp hz
      omega
    | some z =>
      simp only [Option.map_some', Function.comp]
      have := hpv i z hz
      simp only [Nat.zero_add] at this ⊢
      rw [this]

/-- The complete call on a device policy: it succeeds on a well laid out list of non-empty
segments, the output segments then hold `stitched_values` of the input values, and memory
outside the output segments is as before. -/
theorem inclusive_scan_impl_spec {α : Type} [Inhabited α] (devices : List Nat)
    (r o : distributed_range) (op : α → α → α) (init : Option α) (m : Mem α)
    (hlay : layout_ok devices (zipped_segments r o))
    (hne : segments_nonempty (zipped_segments r o)) :
    ∃ m1, inclusive_scan_impl_ (.device_policy devices) r o op init m = .ok m1 ∧
      (∀ a, (∀ z ∈ zipped_segments r o, ¬ in_window z.2 a) → m1 a = m a) ∧
      read_segments m1 ((zipped_segments r o).map Prod.snd)
        = stitched_values op init (read_segments m ((zipped_segments r o).map Prod.fst)) := by
  obtain ⟨st1, h1, hframe1, houts1, hps1, -⟩ :=
    local_scan_phase_spec devices (zipped_segments r o) op init m hlay hne
  obtain ⟨-, hranks, -, hsep⟩ := hlay
  have hlen1 : st1.partial_sums.length = (zipped_segments r o).length := by
    rw [hps1]
    simp [segment_lasts, local_values_length, read_segments]
  obtain ⟨st3, h3, hframe3, houts3, -, -⟩ :=
    carry_loop_spec devices op (zipped_segments r o) 0 (carry_scan op st1)
      (fun z hz => (hranks z hz).2) hsep
      (by simp only [carry_scan, dpl_inclusive_scan_length]; omega)
  refine ⟨st3.mem, ?_, ?_, ?_⟩
  · simp only [inclusive_scan_impl_, h1, h3]
  · intro a ha
    rw [hframe3 a ha]
    exact hframe1 a ha
  · apply List.ext_getElem?
    intro i
    unfold stitched_values
    rw [carried_values_getElem?, ← houts1, ← hps1]
    unfold read_segments
    simp only [List.getElem?_map, Option.map_map]
    cases hz : (zipped_segments r o)[i]? with
    | none => rfl
    | some z =>
      simp only [Option.map_some', Function.comp]
      rw [houts3 i z hz]
      simp only [carry_scan, Nat.zero_add]

/-! ## The sequential reference and the algebra of the stitch -/

theorem sequential_scan_some {α : Type} (op : α → α → α) (acc : α) (xs : List α) :
    sequential_scan op (some acc) xs = scan_from op acc xs := by
  induction xs generalizing acc with
  | nil => rfl
  | cons x xs ih => simp [sequential_scan, scan_from, ih]

theorem sequential_scan_eq_local {α : Type} (op : α → α → α) (init : Option α)
    (xs : List α) : sequential_scan op init xs = local_scan_values op init 0 xs := by
  cases init with
  | none =>
    cases xs with
    | nil => rfl
    | cons x xs =>
      simp [sequential_scan, local_scan_values, dpl_inclusive_scan, sequential_scan_some]
  | some v =>
    simp [local_scan_values, dpl_inclusive_scan_init, sequential_scan_some]

theorem local_scan_values_succ {α : Type} (op : α → α → α) (init : Option α) (k : Nat)
    (xs : List α) : local_scan_values op init (k + 1) xs = dpl_inclusive_scan op xs := by
  simp [local_scan_values]

theorem local_values_succ {α : Type} (op : α → α → α) (init : Option α) (k : Nat)
    (xss : List (List α)) :
    local_values op init (k + 1) xss = xss.map (dpl_inclusive_scan op) := by
  induction xss generalizing k with
  | nil => rfl
  | cons xs rest ih => simp [local_values, local_scan_values_succ, ih]

theorem scan_from_append {α : Type} (op : α → α → α) (acc : α) (xs ys : List α) :
    scan_from op acc (xs ++ ys) = scan_from op acc xs ++ scan_from op (xs.foldl op acc) ys := by
  induction xs generalizing acc with
  | nil => rfl
  | cons x xs ih => simp [scan_from, ih]

theorem last_value_cons_cons {α : Type} [Inhabited α] (a b : α) (l : List α) :
    last_value (a :: b :: l) = last_value (b :: l) := by
  simp [last_value, List.getLast?_cons_cons]

theorem last_value_singleton {α : Type} [Inhabited α] (a : α) : last_value [a] = a := by
  simp [last_value]

theorem last_value_scan_from {α : Type} [Inhabited α] (op : α → α → α) (acc x : α)
    (xs : List α) : last_value (scan_from op acc (x :: xs)) = (x :: xs).foldl op acc := by
  induction xs generalizing acc x with
  | nil => simp [scan_from, last_value_singleton]
  | cons y ys ih =>
    have := ih (op acc x) y
    simp only [scan_from, List.foldl_cons] at this ⊢
    rw [last_value_cons_cons]
    exact this

theorem last_value_cons_scan_from {α : Type} [Inhabited α] (op : α → α → α) (x : α)
    (xs : List α) : last_value (x :: scan_from op x xs) = xs.foldl op x := by
  cases xs with
  | nil => simp [scan_from, last_value_singleton]
  | cons y ys =>
    have := last_value_scan_from op x y ys
    simp only [scan_from] at this ⊢
    rw [last_value_cons_cons]
    exact this

theorem scan_from_map_of_assoc {α : Type} (op : α → α → α)
    (hassoc : ∀ a b c, op (op a b) c = op a (op b c)) (c a : α) (xs : List α) :
    scan_from op (op c a) xs = (scan_from op a xs).map (fun x => op c x) := by
  induction xs generalizing a with
  | nil => rfl
  | cons x xs ih =>
    simp only [scan_from, List.map_cons]
    rw [hassoc c a x, ih]

theorem foldl_of_assoc {α : Type} (op : α → α → α)
    (hassoc : ∀ a b c, op (op a b) c = op a (op b c)) (c a : α) (xs : List α) :
    xs.foldl op (op c a) = op c (xs.foldl op a) := by
  induction xs generalizing a with
  | nil => rfl
  | cons x xs ih =>
    simp only [List.foldl_cons]
    rw [hassoc c a x, ih]

theorem scan_from_eq_map_dpl {α : Type} (op : α → α → α)
    (hassoc : ∀ a b c, op (op a b) c = op a (op b c)) (c x : α) (xs : List α) :
    scan_from op c (x :: xs) = (dpl_inclusive_scan op (x :: xs)).map (fun y => op c y) := by
  simp only [scan_from, dpl_inclusive_scan, List.map_cons]
  rw [scan_from_map_of_assoc op hassoc]

theorem carry_values_shift {α : Type} (op : α → α → α) (c : α) (cs : List α) (k : Nat)
    (ys : List α) : carry_values op (c :: cs) (k + 2) ys = carry_values op cs (k + 1) ys := by
  simp [carry_values]

theorem carried_values_shift {α : Type} (op : α → α → α) (c : α) (cs : List α) (k : Nat)
    (yss : List (List α)) :
    carried_values op (c :: cs) (k + 2) yss = carried_values op cs (k + 1) yss := by
  induction yss generalizing k with
  | nil => rfl
  | cons ys rest ih =>
    simp only [carried_values]
    rw [carry_values_shift, ih (k + 1)]

/-- The stitch of the segments after the first, for an associative and commutative
operator: with the carries `c, c·t₁, c·t₁·t₂, …` the carried local scans, concatenated, are
the running combination from `c` over the concatenated segments. -/
theorem carried_flatten_of_assoc_comm {α : Type} [Inhabited α] (op : α → α → α)
    (hassoc : ∀ a b c, op (op a b) c = op a (op b c)) (hcomm : ∀ a b, op a b = op b a)
    (c : α) (rest : List (List α)) (hne : ∀ xs ∈ rest, xs ≠ []) :
    (carried_values op (c :: scan_from op c (rest.map (segment_total op))) 1
      (rest.map (dpl_inclusive_scan op))).flatten = scan_from op c rest.flatten := by
  induction rest generalizing c with
  | nil => rfl
  | cons xs rest ih =>
    obtain ⟨x, xs1, rfl⟩ := List.exists_cons_of_ne_nil (hne xs (List.mem_cons_self _ _))
    rw [List.map_cons, List.map_cons, List.flatten_cons]
    rw [show scan_from op c (segment_total op (x :: xs1) :: rest.map (segment_total op))
        = op c (segment_total op (x :: xs1))
          :: scan_from op (op c (segment_total op (x :: xs1))) (rest.map (segment_total op))
        from rfl]
    rw [show ∀ ps L Ls, carried_values op ps 1 (L :: Ls)
        = carry_values op ps 1 L :: carried_values op ps 2 Ls from fun _ _ _ => rfl]
    rw [List.flatten_cons, carried_values_shift, ih (op c (segment_total op (x :: xs1)))
      (fun ys hys => hne ys (List.mem_cons_of_mem _ hys))]
    rw [scan_from_append, scan_from_eq_map_dpl op hassoc]
    congr 1
    · simp only [carry_values, List.getElem?_cons_zero]
      apply List.map_congr_left
      intro y _
      exact hcomm y c
    · congr 1
      simp only [segment_total, dpl_inclusive_scan, last_value_cons_scan_from, List.foldl_cons]
      rw [foldl_of_assoc op hassoc]

theorem local_scan_values_zero_ne_nil {α : Type} (op : α → α → α) (init : Option α)
    (xs : List α) (h : xs ≠ []) : local_scan_values op init 0 xs ≠ [] := by
  intro h1
  have := congrArg List.length h1
  rw [local_scan_values_length] at this
  exact h (List.length_eq_zero.mp this)

theorem local_scan_values_zero_append {α : Type} [Inhabited α] (op : α → α → α)
    (init : Option α) (xs ys : List α) (h : xs ≠ []) :
    local_scan_values op init 0 (xs ++ ys) = local_scan_values op init 0 xs
      ++ scan_from op (last_value (local_scan_values op init 0 xs)) ys := by
  obtain ⟨x, xs1, rfl⟩ := List.exists_cons_of_ne_nil h
  cases init with
  | none =>
    simp only [local_scan_values, List.cons_append, dpl_inclusive_scan, scan_from_append,
      last_value_cons_scan_from]
  | some v =>
    simp only [local_scan_values, dpl_inclusive_scan_init, scan_from_append,
      last_value_scan_from]

theorem stitched_values_cons {α : Type} [Inhabited α] (op : α → α → α) (init : Option α)
    (xs : List α) (rest : List (List α)) :
    stitched_values op init (xs :: rest) = local_scan_values op init 0 xs ::
      carried_values op (last_value (local_scan_values op init 0 xs) ::
        scan_from op (last_value (local_scan_values op init 0 xs))
          (rest.map (segment_total op))) 1 (rest.map (dpl_inclusive_scan op)) := by
  simp only [stitched_values, segment_lasts, local_values, List.map_cons, dpl_inclusive_scan,
    carried_values, carry_values, local_values_succ, List.map_map]
  rfl

/-- For an associative and commutative operator the three phases compute, on non-empty
segments, the sequential inclusive scan of the concatenated input. -/
theorem stitched_values_flatten {α : Type} [Inhabited α] (op : α → α → α)
    (hassoc : ∀ a b c, op (op a b) c = op a (op b c)) (hcomm : ∀ a b, op a b = op b a)
    (init : Option α) (xss : List (List α)) (hne : ∀ xs ∈ xss, xs ≠ []) :
    (stitched_values op init xss).flatten = sequential_scan op init xss.flatten := by
  rw [sequential_scan_eq_local]
  cases xss with
  | nil => cases init <;> rfl
  | cons xs rest =>
    rw [stitched_values_cons, List.flatten_cons, List.flatten_cons,
      local_scan_values_zero_append op init xs _ (hne xs (List.mem_cons_self _ _)),
      carried_flatten_of_assoc_comm op hassoc hcomm _ rest
        (fun ys hys => hne ys (List.mem_cons_of_mem _ hys))]

/-! ## The call on ranges segmented alike -/

theorem zipped_segments_fst (r o : distributed_range) (h : r.length = o.length) :
    (zipped_segments r o).map Prod.fst = r :=
  List.map_fst_zip r o (by omega)

theorem zipped_segments_snd (r o : distributed_range) (h : r.length = o.length) :
    (zipped_segments r o).map Prod.snd = o :=
  List.map_snd_zip r o (by omega)

theorem read_segments_ne_nil {α : Type} (m : Mem α) (r o : distributed_range)
    (h : r.length = o.length) (hne : segments_nonempty (zipped_segments r o)) :
    ∀ xs ∈ read_segments m r, xs ≠ [] := by
  intro xs hxs
  unfold read_segments at hxs
  rw [← zipped_segments_fst r o h] at hxs
  simp only [List.map_map, List.mem_map, Function.comp] at hxs
  obtain ⟨z, hz, rfl⟩ := hxs
  intro h0
  have h1 := congrArg List.length h0
  simp only [read_segment, read_range_length, List.length_nil] at h1
  have := hne z hz
  omega

/-- The complete call on two ranges with the same number of segments, well laid out and
non-empty: it succeeds, the output range holds `stitched_values` of the input values, and
memory outside the output range is as before. -/
theorem inclusive_scan_impl_values {α : Type} [Inhabited α] (devices : List Nat)
    (r o : distributed_range) (op : α → α → α) (init : Option α) (m : Mem α)
    (hlen : r.length = o.length)
    (hlay : layout_ok devices (zipped_segments r o))
    (hne : segments_nonempty (zipped_segments r o)) :
    ∃ m1, inclusive_scan_impl_ (.device_policy devices) r o op init m = .ok m1 ∧
      (∀ a, (∀ s ∈ o, ¬ in_window s a) → m1 a = m a) ∧
      read_segments m1 o = stitched_values op init (read_segments m r) := by
  obtain ⟨m1, h1, hframe, hout⟩ := inclusive_scan_impl_spec devices r o op init m hlay hne
  rw [zipped_segments_fst r o hlen, zipped_segments_snd r o hlen] at hout
  refine ⟨m1, h1, ?_, hout⟩
  intro a ha
  apply hframe
  intro z hz
  apply ha
  rw [← zipped_segments_snd r o hlen]
  exact List.mem_map_of_mem Prod.snd hz

theorem scan_from_add_getElem? {α : Type} [AddCommMonoid α] (acc : α) (xs : List α)
    (i : Nat) (h : i < xs.length) :
    (scan_from (fun a b => a + b) acc xs)[i]? = some (acc + (xs.take (i + 1)).sum) := by
  induction xs generalizing acc i with
  | nil => simp at h
  | cons x xs ih =>
    cases i with
    | zero => simp [scan_from]
    | succ i =>
      simp only [List.length_cons] at h
      simp only [scan_from, List.getElem?_cons_succ, List.take_succ_cons, List.sum_cons]
      rw [ih (acc + x) i (by omega), add_assoc]

theorem sequential_scan_add_getElem? {α : Type} [AddCommMonoid α] (xs : List α)
    (i : Nat) (h : i < xs.length) :
    (sequential_scan (fun a b => a + b) none xs)[i]? = some ((xs.take (i + 1)).sum) := by
  cases xs with
  | nil => simp at h
  | cons x xs =>
    simp only [sequential_scan, sequential_scan_some]
    cases i with
    | zero => simp
    | succ i =>
      simp only [List.length_cons] at h
      simp only [List.getElem?_cons_succ, List.take_succ_cons, List.sum_cons]
      exact scan_from_add_getElem? x xs i (by omega)

theorem sequential_scan_length {α : Type} (op : α → α → α) (init : Option α) (xs : List α) :
    (sequential_scan op init xs).length = xs.length := by
  rw [sequential_scan_eq_local, local_scan_values_length]

/-- The default-operator call on non-empty segments computes the sequential scan. -/
theorem inclusive_scan_add_values {α : Type} [Inhabited α] [AddCommMonoid α]
    (devices : List Nat) (r o : distributed_range) (m : Mem α)
    (hlen : r.length = o.length)
    (hlay : layout_ok devices (zipped_segments r o))
    (hne : segments_nonempty (zipped_segments r o)) :
    ∃ m1, inclusive_scan (.device_policy devices) r o m = .ok m1 ∧
      (∀ a, (∀ s ∈ o, ¬ in_window s a) → m1 a = m a) ∧
      read_all m1 o = sequential_scan (fun a b => a + b) none (read_all m r) := by
  obtain ⟨m1, h1, hframe, hout⟩ :=
    inclusive_scan_impl_values devices r o (fun a b : α => a + b) none m hlen hlay hne
  refine ⟨m1, h1, hframe, ?_⟩
  unfold read_all
  rw [hout]
  exact stitched_values_flatten _ (fun a b c => add_assoc a b c) (fun a b => add_comm a b)
    none _ (read_segments_ne_nil m r o hlen hne)

theorem local_scan_step_empty {α : Type} (devices : List Nat) (op : α → α → α)
    (init : Option α) (k : Nat) (segs : remote_subrange × remote_subrange)
    (st : scan_state α) (hr : segs.1.rank < devices.length) (h0 : segs.1.distance = 0) :
    local_scan_step devices op init k segs st = .error .assertion_failed := by
  unfold local_scan_step
  simp only [List.getElem?_eq_getElem hr, h0, if_true]

/-- The first loop stops at `assert(dist > 0)` when some input segment is empty. -/
theorem local_scan_loop_empty {α : Type} [Inhabited α] (devices : List Nat)
    (op : α → α → α) (init : Option α) (zs : List (remote_subrange × remote_subrange))
    (k : Nat) (st : scan_state α)
    (hr : ∀ z ∈ zs, z.1.rank < devices.length)
    (hsz : ∀ z ∈ zs, z.1.distance = z.2.distance)
    (hk : k + zs.length ≤ st.partial_sums.length)
    (hempty : ∃ z ∈ zs, z.1.distance = 0) :
    local_scan_loop devices op init k zs st = .error .assertion_failed := by
  induction zs generalizing k st with
  | nil => obtain ⟨z, hz, -⟩ := hempty; simp at hz
  | cons z rest ih =>
    simp only [List.length_cons] at hk
    by_cases h0 : z.1.distance = 0
    · simp only [local_scan_loop,
        local_scan_step_empty devices op init k z st (hr z (List.mem_cons_self _ _)) h0]
    · have hstep := local_scan_step_ok devices op init k z st (hr z (List.mem_cons_self _ _))
        (by omega) (hsz z (List.mem_cons_self _ _)) (by omega)
      simp only [local_scan_loop, hstep]
      apply ih
      · exact fun w hw => hr w (List.mem_cons_of_mem _ hw)
      · exact fun w hw => hsz w (List.mem_cons_of_mem _ hw)
      · simp only [List.length_set]; omega
      · obtain ⟨w, hw, hw0⟩ := hempty
        rcases List.mem_cons.mp hw with rfl | hw1
        · exact absurd hw0 h0
        · exact ⟨w, hw1, hw0⟩

theorem stitched_values_seed {α : Type} [Inhabited α] (op : α → α → α) (v0 : α)
    (x0 : List α) (rest : List (List α)) (h : x0 ≠ []) :
    (stitched_values op none ((v0 :: x0) :: rest)).flatten
      = v0 :: (stitched_values op (some v0) (x0 :: rest)).flatten := by
  obtain ⟨x, xs, rfl⟩ := List.exists_cons_of_ne_nil h
  rw [stitched_values_cons, stitched_values_cons]
  have h1 : local_scan_values op none 0 (v0 :: x :: xs)
      = v0 :: local_scan_values op (some v0) 0 (x :: xs) := rfl
  have h2 : last_value (local_scan_values op none 0 (v0 :: x :: xs))
      = last_value (local_scan_values op (some v0) 0 (x :: xs)) := by
    rw [h1]
    exact last_value_cons_cons _ _ _
  rw [h2, h1]
  rfl

theorem segments_nonempty_of_values {α : Type} (m : Mem α) (r o : distributed_range)
    (hlen : r.length = o.length) (h : ∀ xs ∈ read_segments m r, xs ≠ []) :
    segments_nonempty (zipped_segments r o) := by
  intro z hz
  have hz1 : z.1 ∈ r := by
    rw [← zipped_segments_fst r o hlen]
    exact List.mem_map_of_mem Prod.fst hz
  have := h (read_segment m z.1) (List.mem_map_of_mem _ hz1)
  by_contra h0
  apply this
  apply List.length_eq_zero.mp
  simp only [read_segment, read_range_length]
  omega

/-! ## The properties -/

/-- C1: called with no operator and no seed on a device policy, on an input of non-empty
segments and an output segmented identically (well laid out in memory), `inclusive_scan`
succeeds and leaves in the output the sequential prefix sums of the concatenated input:
the element at global index `i` is `in[0] + ... + in[i]`. -/
theorem inclusive_scan_default_prefix_sums {α : Type} [Inhabited α] [AddCommMonoid α]
    (devices : List Nat) (r o : distributed_range) (m : Mem α)
    (hlen : r.length = o.length)
    (hlay : layout_ok devices (zipped_segments r o))
    (hne : segments_nonempty (zipped_segments r o)) :
    ∃ m1, inclusive_scan (.device_policy devices) r o m = .ok m1 ∧
      (read_all m1 o).length = (read_all m r).length ∧
      ∀ i, i < (read_all m r).length →
        (read_all m1 o)[i]? = some (((read_all m r).take (i + 1)).sum) := by
  obtain ⟨m1, h1, -, hout⟩ := inclusive_scan_add_values devices r o m hlen hlay hne
  refine ⟨m1, h1, ?_, ?_⟩
  · rw [hout, sequential_scan_length]
  · intro i hi
    rw [hout]
    exact sequential_scan_add_getElem? _ i hi

theorem inclusive_scan_default_prefix_sums_witness :
    example_in.length = example_out.length ∧
    layout_ok example_devices (zipped_segments example_in example_out) ∧
    segments_nonempty (zipped_segments example_in example_out) ∧
    ∃ m1, inclusive_scan (.device_policy example_devices) example_in example_out example_mem
        = .ok m1 ∧
      (read_all m1 example_out).length = (read_all example_mem example_in).length ∧
      ∀ i, i < (read_all example_mem example_in).length →
        (read_all m1 example_out)[i]?
          = some (((read_all example_mem example_in).take (i + 1)).sum) :=
  ⟨rfl, by decide, by decide,
    inclusive_scan_default_prefix_sums example_devices example_in example_out example_mem rfl
      (by decide) (by decide)⟩

/-- C2: with the associative, non-commutative operator that returns its left operand, on
the input `[1, …, 8]` in two segments of length 4, the sequential inclusive scan is
`[1, 1, 1, 1, 1, 1, 1, 1]` but `inclusive_scan(policy, r, o, op)` leaves
`[1, 1, 1, 1, 5, 5, 5, 5]`: the last loop combines the carry on the right,
`op(x, sum)`, where the scan order needs it on the left. -/
theorem inclusive_scan_op_left_operand_diverges :
    (∀ a b c, left_operand (left_operand a b) c = left_operand a (left_operand b c)) ∧
    layout_ok example_devices (zipped_segments example_in example_out) ∧
    segments_nonempty (zipped_segments example_in example_out) ∧
    read_all example_mem example_in = [1, 2, 3, 4, 5, 6, 7, 8] ∧
    (inclusive_scan_op (.device_policy example_devices) example_in example_out left_operand
        example_mem).map (fun m1 => read_all m1 example_out)
      = .ok [1, 1, 1, 1, 5, 5, 5, 5] ∧
    sequential_scan left_operand none (read_all example_mem example_in)
      = [1, 1, 1, 1, 1, 1, 1, 1] :=
  ⟨fun _ _ _ => rfl, by decide, by decide, by decide, rfl, by decide⟩

/-- C3 (counterexample): on a well laid out input of two segments of lengths 4 and 0,
`inclusive_scan` with the default addition does not complete: it stops at
`assert(dist > 0)`. -/
theorem inclusive_scan_empty_segment_stops :
    example_in_gap.length = example_out_gap.length ∧
    layout_ok example_devices (zipped_segments example_in_gap example_out_gap) ∧
    inclusive_scan (.device_policy example_devices) example_in_gap example_out_gap
      example_mem = .error .assertion_failed ∧
    ¬ ∃ m1, inclusive_scan (.device_policy example_devices) example_in_gap example_out_gap
      example_mem = .ok m1 := by
  have h : inclusive_scan (.device_policy example_devices) example_in_gap example_out_gap
      example_mem = .error .assertion_failed := rfl
  refine ⟨rfl, by decide, h, ?_⟩
  rintro ⟨m1, h1⟩
  rw [h] at h1
  cases h1

/-- C3 (amended): for every well laid out pair of ranges with the same number of segments,
the default-addition `inclusive_scan` completes with the sequential scan of the input in
the output when every segment has at least one element, and stops at `assert(dist > 0)`
when some segment has none. -/
theorem inclusive_scan_default_completes_iff_nonempty {α : Type} [Inhabited α]
    [AddCommMonoid α] (devices : List Nat) (r o : distributed_range) (m : Mem α)
    (hlen : r.length = o.length)
    (hlay : layout_ok devices (zipped_segments r o)) :
    (segments_nonempty (zipped_segments r o) →
      ∃ m1, inclusive_scan (.device_policy devices) r o m = .ok m1 ∧
        read_all m1 o = sequential_scan (fun a b => a + b) none (read_all m r)) ∧
    (¬ segments_nonempty (zipped_segments r o) →
      inclusive_scan (.device_policy devices) r o m = .error .assertion_failed) := by
  constructor
  · intro hne
    obtain ⟨m1, h1, -, hout⟩ := inclusive_scan_add_values devices r o m hlen hlay hne
    exact ⟨m1, h1, hout⟩
  · intro hne
    obtain ⟨hdev, hranks, hsizes, -⟩ := hlay
    have hempty : ∃ z ∈ zipped_segments r o, z.1.distance = 0 := by
      unfold segments_nonempty at hne
      push_neg at hne
      obtain ⟨z, hz, h0⟩ := hne
      exact ⟨z, hz, by omega⟩
    have hloop := local_scan_loop_empty devices (fun a b : α => a + b) none
      (zipped_segments r o) 0
      { mem := m, partial_sums := List.replicate (zipped_segments r o).length default,
        events := [] }
      (fun z hz => (hranks z hz).1) hsizes (by simp) hempty
    simp only [inclusive_scan, inclusive_scan_op, inclusive_scan_impl_, local_scan_phase,
      List.getElem?_eq_getElem hdev, hloop]

theorem inclusive_scan_default_completes_iff_nonempty_witness :
    example_in.length = example_out.length ∧
    layout_ok example_devices (zipped_segments example_in example_out) ∧
    ((segments_nonempty (zipped_segments example_in example_out) →
      ∃ m1, inclusive_scan (.device_policy example_devices) example_in example_out
          example_mem = .ok m1 ∧
        read_all m1 example_out
          = sequential_scan (fun a b => a + b) none (read_all example_mem example_in)) ∧
    (¬ segments_nonempty (zipped_segments example_in example_out) →
      inclusive_scan (.device_policy example_devices) example_in example_out example_mem
        = .error .assertion_failed)) :=
  ⟨rfl, by decide,
    inclusive_scan_default_completes_iff_nonempty example_devices example_in example_out
      example_mem rfl (by decide)⟩

/-- C4: seed consistency.  For every operator and seed `v0`, on non-empty well laid out
segments, `inclusive_scan` with seed `v0` on an input leaves the same output as
`inclusive_scan` without seed on the input with `v0` prepended to its first segment, once
the first output element is discarded. -/
theorem inclusive_scan_seed_consistency {α : Type} [Inhabited α] (devices : List Nat)
    (op : α → α → α) (v0 : α) (r o r2 o2 : distributed_range) (m m2 : Mem α)
    (x0 : List α) (rest : List (List α))
    (hlen : r.length = o.length)
    (hlay : layout_ok devices (zipped_segments r o))
    (hne : segments_nonempty (zipped_segments r o))
    (hlen2 : r2.length = o2.length)
    (hlay2 : layout_ok devices (zipped_segments r2 o2))
    (hne2 : segments_nonempty (zipped_segments r2 o2))
    (hin : read_segments m r = x0 :: rest)
    (hin2 : read_segments m2 r2 = (v0 :: x0) :: rest) :
    ∃ m1 m3, inclusive_scan_op_init (.device_policy devices) r o op v0 m = .ok m1 ∧
      inclusive_scan_op (.device_policy devices) r2 o2 op m2 = .ok m3 ∧
      (read_all m3 o2).tail = read_all m1 o := by
  obtain ⟨m1, h1, -, hout1⟩ :=
    inclusive_scan_impl_values devices r o op (some v0) m hlen hlay hne
  obtain ⟨m3, h3, -, hout3⟩ :=
    inclusive_scan_impl_values devices r2 o2 op none m2 hlen2 hlay2 hne2
  refine ⟨m1, m3, h1, h3, ?_⟩
  have hx0 : x0 ≠ [] := by
    apply read_segments_ne_nil m r o hlen hne
    rw [hin]
    exact List.mem_cons_self _ _
  unfold read_all
  rw [hout1, hout3, hin, hin2, stitched_values_seed op v0 x0 rest hx0]
  rfl

theorem inclusive_scan_seed_consistency_witness :
    example_in.length = example_out.length ∧
    layout_ok example_devices (zipped_segments example_in example_out) ∧
    segments_nonempty (zipped_segments example_in example_out) ∧
    example_in_seeded.length = example_out_seeded.length ∧
    layout_ok example_devices (zipped_segments example_in_seeded example_out_seeded) ∧
    segments_nonempty (zipped_segments example_in_seeded example_out_seeded) ∧
    read_segments example_mem example_in = [1, 2, 3, 4] :: [[5, 6, 7, 8]] ∧
    read_segments example_mem_seeded example_in_seeded
      = (100 :: [1, 2, 3, 4]) :: [[5, 6, 7, 8]] ∧
    ∃ m1 m3, inclusive_scan_op_init (.device_policy example_devices) example_in example_out
        (fun a b => a + b) 100 example_mem = .ok m1 ∧
      inclusive_scan_op (.device_policy example_devices) example_in_seeded
        example_out_seeded (fun a b => a + b) example_mem_seeded = .ok m3 ∧
      (read_all m3 example_out_seeded).tail = read_all m1 example_out :=
  ⟨rfl, by decide, by decide, rfl, by decide, by decide, by decide, by decide,
    inclusive_scan_seed_consistency example_devices (fun a b => a + b) 100 example_in
      example_out example_in_seeded example_out_seeded example_mem example_mem_seeded
      [1, 2, 3, 4] [[5, 6, 7, 8]] rfl (by decide) (by decide) rfl (by decide) (by decide)
      (by decide) (by decide)⟩

/-- C5 (counterexample): on the input `[1, …, 8]` in two segments of length 4, with
addition and no seed, the output is `[1, 3, 6, 10, 15, 21, 28, 36]` and not
`[1, 3, 6, 10, 14, 20, 27, 35]`. -/
theorem scenario_default_output_differs :
    read_segments example_mem example_in = [[1, 2, 3, 4], [5, 6, 7, 8]] ∧
    (inclusive_scan (.device_policy example_devices) example_in example_out
        example_mem).map (fun m1 => read_all m1 example_out)
      = .ok [1, 3, 6, 10, 15, 21, 28, 36] ∧
    (inclusive_scan (.device_policy example_devices) example_in example_out
        example_mem).map (fun m1 => read_all m1 example_out)
      ≠ .ok [1, 3, 6, 10, 14, 20, 27, 35] := by
  have h : (inclusive_scan (.device_policy example_devices) example_in example_out
      example_mem).map (fun m1 => read_all m1 example_out)
      = .ok [1, 3, 6, 10, 15, 21, 28, 36] := rfl
  refine ⟨by decide, h, ?_⟩
  rw [h]
  intro h1
  injection h1 with h2
  revert h2
  decide

/-- C5 (amended): on every well laid out input holding `[1, 2, 3, 4]` and `[5, 6, 7, 8]`
in two segments, with addition and no seed, `inclusive_scan` succeeds and the output is
`[1, 3, 6, 10, 15, 21, 28, 36]`. -/
theorem scenario_default_output (devices : List Nat) (r o : distributed_range)
    (m : Mem Int) (hlen : r.length = o.length)
    (hlay : layout_ok devices (zipped_segments r o))
    (hin : read_segments m r = [[1, 2, 3, 4], [5, 6, 7, 8]]) :
    ∃ m1, inclusive_scan (.device_policy devices) r o m = .ok m1 ∧
      read_all m1 o = [1, 3, 6, 10, 15, 21, 28, 36] := by
  have hne : segments_nonempty (zipped_segments r o) := by
    apply segments_nonempty_of_values m r o hlen
    rw [hin]
    decide
  obtain ⟨m1, h1, -, hout⟩ :=
    inclusive_scan_impl_values devices r o (fun a b : Int => a + b) none m hlen hlay hne
  refine ⟨m1, h1, ?_⟩
  unfold read_all
  rw [hout, hin]
  decide

theorem scenario_default_output_witness :
    example_in.length = example_out.length ∧
    layout_ok example_devices (zipped_segments example_in example_out) ∧
    read_segments example_mem example_in = [[1, 2, 3, 4], [5, 6, 7, 8]] ∧
    ∃ m1, inclusive_scan (.device_policy example_devices) example_in example_out example_mem
        = .ok m1 ∧
      read_all m1 example_out = [1, 3, 6, 10, 15, 21, 28, 36] :=
  ⟨rfl, by decide, by decide,
    scenario_default_output example_devices example_in example_out example_mem rfl
      (by decide) (by decide)⟩

/-- C6 (counterexample): on the input `[1, …, 8]` in two segments of length 4, with
addition and seed `100`, the output is `[101, 103, 106, 110, 115, 121, 128, 136]` and not
`[101, 103, 106, 110, 114, 120, 127, 135]`. -/
theorem scenario_seeded_output_differs :
    read_segments example_mem example_in = [[1, 2, 3, 4], [5, 6, 7, 8]] ∧
    (inclusive_scan_op_init (.device_policy example_devices) example_in example_out
        (fun a b => a + b) 100 example_mem).map (fun m1 => read_all m1 example_out)
      = .ok [101, 103, 106, 110, 115, 121, 128, 136] ∧
    (inclusive_scan_op_init (.device_policy example_devices) example_in example_out
        (fun a b => a + b) 100 example_mem).map (fun m1 => read_all m1 example_out)
      ≠ .ok [101, 103, 106, 110, 114, 120, 127, 135] := by
  have h : (inclusive_scan_op_init (.device_policy example_devices) example_in example_out
      (fun a b => a + b) 100 example_mem).map (fun m1 => read_all m1 example_out)
      = .ok [101, 103, 106, 110, 115, 121, 128, 136] := rfl
  refine ⟨by decide, h, ?_⟩
  rw [h]
  intro h1
  injection h1 with h2
  revert h2
  decide

/-- C6 (amended): on every well laid out input holding `[1, 2, 3, 4]` and `[5, 6, 7, 8]`
in two segments, with addition and seed `100`, `inclusive_scan` succeeds and the output is
`[101, 103, 106, 110, 115, 121, 128, 136]`. -/
theorem scenario_seeded_output (devices : List Nat) (r o : distributed_range)
    (m : Mem Int) (hlen : r.length = o.length)
    (hlay : layout_ok devices (zipped_segments r o))
    (hin : read_segments m r = [[1, 2, 3, 4], [5, 6, 7, 8]]) :
    ∃ m1, inclusive_scan_op_init (.device_policy devices) r o (fun a b => a + b) 100 m
        = .ok m1 ∧
      read_all m1 o = [101, 103, 106, 110, 115, 121, 128, 136] := by
  have hne : segments_nonempty (zipped_segments r o) := by
    apply segments_nonempty_of_values m r o hlen
    rw [hin]
    decide
  obtain ⟨m1, h1, -, hout⟩ :=
    inclusive_scan_impl_values devices r o (fun a b : Int => a + b) (some 100) m hlen hlay hne
  refine ⟨m1, h1, ?_⟩
  unfold read_all
  rw [hout, hin]
  decide

theorem scenario_seeded_output_witness :
    example_in.length = example_out.length ∧
    layout_ok example_devices (zipped_segments example_in example_out) ∧
    read_segments example_mem example_in = [[1, 2, 3, 4], [5, 6, 7, 8]] ∧
    ∃ m1, inclusive_scan_op_init (.device_policy example_devices) example_in example_out
        (fun a b => a + b) 100 example_mem = .ok m1 ∧
      read_all m1 example_out = [101, 103, 106, 110, 115, 121, 128, 136] :=
  ⟨rfl, by decide, by decide,
    scenario_seeded_output example_devices example_in example_out example_mem rfl
      (by decide) (by decide)⟩

/-- C7: with a single non-empty segment, for every operator and optional seed, the last
loop submits no task and returns its state as it received it, and the call leaves in the
output segment exactly the local inclusive scan of the input segment (from the seed, when
there is one). -/
theorem single_segment_is_local_scan {α : Type} [Inhabited α] (devices : List Nat)
    (i out : remote_subrange) (op : α → α → α) (init : Option α) (m : Mem α)
    (hlay : layout_ok devices (zipped_segments [i] [out]))
    (hne : segments_nonempty (zipped_segments [i] [out])) :
    ∃ st1, local_scan_phase devices (zipped_segments [i] [out]) op init m = .ok st1 ∧
      carry_loop devices op 0 (zipped_segments [i] [out]) (carry_scan op st1)
        = .ok (carry_scan op st1) ∧
      (carry_scan op st1).events = [] ∧
      inclusive_scan_impl_ (.device_policy devices) [i] [out] op init m = .ok st1.mem ∧
      st1.mem = write_range m out.begin_ (sequential_scan op init (read_segment m i)) ∧
      read_all st1.mem [out] = sequential_scan op init (read_all m [i]) := by
  obtain ⟨hdev, hranks, hsizes, -⟩ := hlay
  have hz : (i, out) ∈ zipped_segments [i] [out] := by simp [zipped_segments]
  have hstep := local_scan_step_ok devices op init 0 (i, out)
    { mem := m, partial_sums := [default], events := [] }
    (hranks _ hz).1 (hne _ hz) (hsizes _ hz) (by simp)
  have h1 : local_scan_phase devices (zipped_segments [i] [out]) op init m = .ok
      { mem := write_range m out.begin_ (local_scan_values op init 0 (read_segment m i))
        partial_sums := [default].set 0
          (last_value (local_scan_values op init 0 (read_segment m i)))
        events := [] ++ [0] } := by
    simp only [local_scan_phase, List.getElem?_eq_getElem hdev, zipped_segments,
      List.zip_cons_cons, List.zip_nil_left, List.length_singleton, List.replicate,
      local_scan_loop, hstep]
  have hc : ∀ st : scan_state α, carry_loop devices op 0 (zipped_segments [i] [out]) st
      = .ok st := by
    intro st
    simp only [zipped_segments, List.zip_cons_cons, List.zip_nil_left, carry_loop, carry_step,
      List.getElem?_eq_getElem (hranks _ hz).2, Nat.lt_irrefl, if_false]
  refine ⟨_, h1, hc _, rfl, ?_, ?_, ?_⟩
  · simp only [inclusive_scan_impl_, h1, hc]
    rfl
  · rw [sequential_scan_eq_local]
  · have hlen : (local_scan_values op init 0 (read_segment m i)).length = out.distance := by
      rw [local_scan_values_length, ← hsizes _ hz]
      exact read_range_length _ _ _
    simp only [read_all, read_segments, List.map_cons, List.map_nil, List.flatten_cons,
      List.flatten_nil, List.append_nil]
    rw [read_segment_write_same m out _ hlen, sequential_scan_eq_local]

theorem single_segment_is_local_scan_witness :
    layout_ok example_devices
      (zipped_segments [remote_subrange.of_iterators 0 8 1] [remote_subrange.of_iterators 8 16 1]) ∧
    segments_nonempty
      (zipped_segments [remote_subrange.of_iterators 0 8 1] [remote_subrange.of_iterators 8 16 1]) ∧
    ∃ st1, local_scan_phase example_devices
        (zipped_segments [remote_subrange.of_iterators 0 8 1]
          [remote_subrange.of_iterators 8 16 1]) left_operand (some 7) example_mem = .ok st1 ∧
      carry_loop example_devices left_operand 0
        (zipped_segments [remote_subrange.of_iterators 0 8 1]
          [remote_subrange.of_iterators 8 16 1]) (carry_scan left_operand st1)
        = .ok (carry_scan left_operand st1) ∧
      (carry_scan left_operand st1).events = [] ∧
      inclusive_scan_impl_ (.device_policy example_devices)
        [remote_subrange.of_iterators 0 8 1] [remote_subrange.of_iterators 8 16 1]
        left_operand (some 7) example_mem = .ok st1.mem ∧
      st1.mem = write_range example_mem (remote_subrange.of_iterators 8 16 1).begin_
        (sequential_scan left_operand (some 7)
          (read_segment example_mem (remote_subrange.of_iterators 0 8 1))) ∧
      read_all st1.mem [remote_subrange.of_iterators 8 16 1]
        = sequential_scan left_operand (some 7)
          (read_all example_mem [remote_subrange.of_iterators 0 8 1]) :=
  ⟨by decide, by decide,
    single_segment_is_local_scan example_devices (remote_subrange.of_iterators 0 8 1)
      (remote_subrange.of_iterators 8 16 1) left_operand (some 7) example_mem
      (by decide) (by decide)⟩

theorem inclusive_scan_impl_no_segments {α : Type} [Inhabited α] (devices : List Nat)
    (hdev : 0 < devices.length) (op : α → α → α) (init : Option α) (m : Mem α) :
    inclusive_scan_impl_ (.device_policy devices) [] [] op init m = .ok m := by
  simp only [inclusive_scan_impl_, local_scan_phase, List.getElem?_eq_getElem hdev,
    zipped_segments, List.zip_nil_left, local_scan_loop, carry_loop]
  rfl

/-- C8: each of the three iterator-pair overloads returns `d_first` advanced by
`distance(first, last)` (same container, index larger by `last - first`) together with
the memory that the corresponding range overload leaves when called on the sub-ranges
`[first, last)` and `[d_first, d_first + distance(first, last))`, and fails as that range
overload fails. -/
theorem inclusive_scan_iter_refines_range {α : Type} [Inhabited α] [Add α]
    (policy : execution_policy) (first last d_first : distributed_iterator)
    (op : α → α → α) (v0 : α) (m : Mem α) :
    (d_first.advance (first.distance last)).index
      = d_first.index + (last.index - first.index) ∧
    (d_first.advance (first.distance last)).segments = d_first.segments ∧
    inclusive_scan_iter policy first last d_first m
      = (inclusive_scan policy (subrange first last)
          (subrange d_first (d_first.advance (first.distance last))) m).map
          (fun m1 => (d_first.advance (first.distance last), m1)) ∧
    inclusive_scan_iter_op policy first last d_first op m
      = (inclusive_scan_op policy (subrange first last)
          (subrange d_first (d_first.advance (first.distance last))) op m).map
          (fun m1 => (d_first.advance (first.distance last), m1)) ∧
    inclusive_scan_iter_op_init policy first last d_first op v0 m
      = (inclusive_scan_op_init policy (subrange first last)
          (subrange d_first (d_first.advance (first.distance last))) op v0 m).map
          (fun m1 => (d_first.advance (first.distance last), m1)) := by
  refine ⟨rfl, rfl, ?_, ?_, ?_⟩
  · unfold inclusive_scan_iter
    dsimp only
    cases inclusive_scan policy (subrange first last)
      (subrange d_first (d_first.advance (first.distance last))) m <;> rfl
  · unfold inclusive_scan_iter_op
    dsimp only
    cases inclusive_scan_op policy (subrange first last)
      (subrange d_first (d_first.advance (first.distance last))) op m <;> rfl
  · unfold inclusive_scan_iter_op_init
    dsimp only
    cases inclusive_scan_op_init policy (subrange first last)
      (subrange d_first (d_first.advance (first.distance last))) op v0 m <;> rfl

theorem advance_distance_self (first d_first : distributed_iterator) :
    d_first.advance (first.distance first) = d_first := by
  unfold distributed_iterator.advance distributed_iterator.distance
  rw [Nat.sub_self]
  rfl

theorem inclusive_scan_impl_of_no_zipped {α : Type} [Inhabited α] (devices : List Nat)
    (hdev : 0 < devices.length) (r o : distributed_range) (op : α → α → α)
    (init : Option α) (m : Mem α) (hz : zipped_segments r o = []) :
    inclusive_scan_impl_ (.device_policy devices) r o op init m = .ok m := by
  simp only [inclusive_scan_impl_, local_scan_phase, List.getElem?_eq_getElem hdev, hz,
    local_scan_loop, carry_loop]
  rfl

theorem inclusive_scan_impl_of_empty_head {α : Type} [Inhabited α] (devices : List Nat)
    (hdev : 0 < devices.length) (r o : distributed_range) (op : α → α → α)
    (init : Option α) (m : Mem α) (z : remote_subrange × remote_subrange)
    (rest : List (remote_subrange × remote_subrange))
    (hz : zipped_segments r o = z :: rest) (hr : z.1.rank < devices.length)
    (h0 : z.1.distance = 0) :
    inclusive_scan_impl_ (.device_policy devices) r o op init m
      = .error .assertion_failed := by
  simp only [inclusive_scan_impl_, local_scan_phase, List.getElem?_eq_getElem hdev, hz,
    local_scan_loop, local_scan_step_empty devices op init 0 z _ hr h0]

/-- C9 (counterexample): an empty input (`n = 0`) given as one segment of length 0 does
not make `inclusive_scan` return: the range call stops at `assert(dist > 0)`, and so does
the iterator call with `first == last` inside a container, whose window is one view of
length 0. -/
theorem inclusive_scan_empty_input_stops :
    read_all example_mem example_in_empty = [] ∧
    layout_ok example_devices (zipped_segments example_in_empty example_out_empty) ∧
    inclusive_scan (.device_policy example_devices) example_in_empty example_out_empty
      example_mem = .error .assertion_failed ∧
    subrange (distributed_iterator.mk example_in 3) (distributed_iterator.mk example_in 3)
      = example_in_empty ∧
    inclusive_scan_iter (.device_policy example_devices)
      (distributed_iterator.mk example_in 3) (distributed_iterator.mk example_in 3)
      (distributed_iterator.mk example_out 3) example_mem = .error .assertion_failed ∧
    ¬ ∃ res, inclusive_scan_iter (.device_policy example_devices)
      (distributed_iterator.mk example_in 3) (distributed_iterator.mk example_in 3)
      (distributed_iterator.mk example_out 3) example_mem = .ok res := by
  have h : inclusive_scan_iter (.device_policy example_devices)
      (distributed_iterator.mk example_in 3) (distributed_iterator.mk example_in 3)
      (distributed_iterator.mk example_out 3) example_mem = .error .assertion_failed := rfl
  refine ⟨by decide, by decide, rfl, by decide, h, ?_⟩
  rintro ⟨res, hres⟩
  rw [h] at hres
  cases hres

/-- C9 (amended): for an empty input (`first == last`) and a device policy with at least
one device, `d_first` advanced by `distance(first, last)` is `d_first` itself; when the
empty window has no zipped segment, each of the three iterator overloads returns `d_first`
with the memory unchanged, and the first loop ends with the memory as it was, an empty
`partial_sums` and no event; so does the range call on no segments.  When instead the
empty window is given as segments of length 0 (the first of them with a rank that names a
device), each overload stops at `assert(dist > 0)`. -/
theorem inclusive_scan_empty_input {α : Type} [Inhabited α] [Add α] (devices : List Nat)
    (hdev : 0 < devices.length) (first d_first : distributed_iterator)
    (op : α → α → α) (v0 : α) (init : Option α) (m : Mem α) :
    d_first.advance (first.distance first) = d_first ∧
    (zipped_segments (subrange first first)
        (subrange d_first (d_first.advance (first.distance first))) = [] →
      inclusive_scan_iter (.device_policy devices) first first d_first m
        = .ok (d_first, m) ∧
      inclusive_scan_iter_op (.device_policy devices) first first d_first op m
        = .ok (d_first, m) ∧
      inclusive_scan_iter_op_init (.device_policy devices) first first d_first op v0 m
        = .ok (d_first, m) ∧
      ∃ st1, local_scan_phase devices
          (zipped_segments (subrange first first)
            (subrange d_first (d_first.advance (first.distance first)))) op init m
          = .ok st1 ∧
        st1.mem = m ∧ st1.partial_sums = [] ∧ st1.events = []) ∧
    inclusive_scan_impl_ (.device_policy devices) [] [] op init m = .ok m ∧
    (∀ (z : remote_subrange × remote_subrange)
        (rest : List (remote_subrange × remote_subrange)),
      zipped_segments (subrange first first)
        (subrange d_first (d_first.advance (first.distance first))) = z :: rest →
      z.1.rank < devices.length → z.1.distance = 0 →
      inclusive_scan_iter (.device_policy devices) first first d_first m
        = .error .assertion_failed ∧
      inclusive_scan_iter_op (.device_policy devices) first first d_first op m
        = .error .assertion_failed ∧
      inclusive_scan_iter_op_init (.device_policy devices) first first d_first op v0 m
        = .error .assertion_failed) := by
  have hd := advance_distance_self first d_first
  refine ⟨hd, ?_, inclusive_scan_impl_no_segments devices hdev op init m, ?_⟩
  · intro hz
    have himpl : ∀ (f : α → α → α) (i0 : Option α),
        inclusive_scan_impl_ (.device_policy devices) (subrange first first)
          (subrange d_first (d_first.advance (first.distance first))) f i0 m = .ok m :=
      fun f i0 => inclusive_scan_impl_of_no_zipped devices hdev _ _ f i0 m hz
    rw [hd] at himpl
    refine ⟨?_, ?_, ?_, ?_⟩
    · simp only [inclusive_scan_iter, inclusive_scan, inclusive_scan_op, hd, himpl]
    · simp only [inclusive_scan_iter_op, inclusive_scan_op, hd, himpl]
    · simp only [inclusive_scan_iter_op_init, inclusive_scan_op_init, hd, himpl]
    · rw [hz]
      refine ⟨{ mem := m, partial_sums := [], events := [] }, ?_, rfl, rfl, rfl⟩
      simp only [local_scan_phase, List.getElem?_eq_getElem hdev, local_scan_loop]
      rfl
  · intro z rest hz hr h0
    have himpl : ∀ (f : α → α → α) (i0 : Option α),
        inclusive_scan_impl_ (.device_policy devices) (subrange first first)
          (subrange d_first (d_first.advance (first.distance first))) f i0 m
          = .error .assertion_failed :=
      fun f i0 => inclusive_scan_impl_of_empty_head devices hdev _ _ f i0 m z rest hz hr h0
    refine ⟨?_, ?_, ?_⟩
    · simp only [inclusive_scan_iter, inclusive_scan, inclusive_scan_op, himpl]
    · simp only [inclusive_scan_iter_op, inclusive_scan_op, himpl]
    · simp only [inclusive_scan_iter_op_init, inclusive_scan_op_init, himpl]

theorem inclusive_scan_empty_input_witness :
    0 < example_devices.length ∧
    zipped_segments
      (subrange (distributed_iterator.mk example_in 8) (distributed_iterator.mk example_in 8))
      (subrange (distributed_iterator.mk example_out 8)
        ((distributed_iterator.mk example_out 8).advance
          ((distributed_iterator.mk example_in 8).distance
            (distributed_iterator.mk example_in 8)))) = [] ∧
    inclusive_scan_iter (.device_policy example_devices)
      (distributed_iterator.mk example_in 8) (distributed_iterator.mk example_in 8)
      (distributed_iterator.mk example_out 8) example_mem
      = .ok (distributed_iterator.mk example_out 8, example_mem) ∧
    inclusive_scan_iter_op (.device_policy example_devices)
      (distributed_iterator.mk example_in 8) (distributed_iterator.mk example_in 8)
      (distributed_iterator.mk example_out 8) left_operand example_mem
      = .ok (distributed_iterator.mk example_out 8, example_mem) ∧
    inclusive_scan_iter_op_init (.device_policy example_devices)
      (distributed_iterator.mk example_in 8) (distributed_iterator.mk example_in 8)
      (distributed_iterator.mk example_out 8) left_operand 5 example_mem
      = .ok (distributed_iterator.mk example_out 8, example_mem) ∧
    inclusive_scan_impl_ (.device_policy example_devices) [] [] left_operand (some 7)
      example_mem = .ok example_mem ∧
    inclusive_scan_iter_op_init (.device_policy example_devices)
      (distributed_iterator.mk example_in 3) (distributed_iterator.mk example_in 3)
      (distributed_iterator.mk example_out 3) left_operand 5 example_mem
      = .error .assertion_failed :=
  ⟨by decide, rfl,
    ((inclusive_scan_empty_input example_devices (by decide)
      (distributed_iterator.mk example_in 8) (distributed_iterator.mk example_out 8)
      left_operand 5 (some 7) example_mem).2.1 rfl).1,
    ((inclusive_scan_empty_input example_devices (by decide)
      (distributed_iterator.mk example_in 8) (distributed_iterator.mk example_out 8)
      left_operand 5 (some 7) example_mem).2.1 rfl).2.1,
    ((inclusive_scan_empty_input example_devices (by decide)
      (distributed_iterator.mk example_in 8) (distributed_iterator.mk example_out 8)
      left_operand 5 (some 7) example_mem).2.1 rfl).2.2.1,
    (inclusive_scan_empty_input example_devices (by decide)
      (distributed_iterator.mk example_in 8) (distributed_iterator.mk example_out 8)
      left_operand 5 (some 7) example_mem).2.2.1,
    ((inclusive_scan_empty_input example_devices (by decide)
      (distributed_iterator.mk example_in 3) (distributed_iterator.mk example_out 3)
      left_operand 5 (some 7) example_mem).2.2.2
        (remote_subrange.of_iterators 3 3 0, remote_subrange.of_iterators 11 11 0) []
        rfl (by decide) rfl).2.2⟩

/-- C10: device reference round trip.  For every value `v`, address `p` and memory,
assigning `v` through `device_ref(p)` returns that same reference, and a read through the
returned reference or through a fresh `device_ref(p)` then returns exactly `v`, whichever
of the host and device paths performs the write and the reads. -/
theorem device_ref_round_trip {α : Type} (write_on_device read_on_device
    fresh_on_device : Bool) (p : Nat) (v : α) (m : Mem α) :
    (device_ref.assign write_on_device (device_ref.mk p) v m).1 = device_ref.mk p ∧
    device_ref.read read_on_device
      (device_ref.assign write_on_device (device_ref.mk p) v m).1
      (device_ref.assign write_on_device (device_ref.mk p) v m).2 = v ∧
    device_ref.read fresh_on_device (device_ref.mk p)
      (device_ref.assign write_on_device (device_ref.mk p) v m).2 = v := by
  cases write_on_device <;> cases read_on_device <;> cases fresh_on_device <;>
    simp [device_ref.assign, device_ref.read, Mem.store]

/-! ## Outcomes of the loop bodies -/

theorem local_scan_step_inv {α : Type} (devices : List Nat) (op : α → α → α)
    (init : Option α) (k : Nat) (segs : remote_subrange × remote_subrange)
    (st st1 : scan_state α) (h : local_scan_step devices op init k segs st = .ok st1) :
    segs.1.rank < devices.length ∧ 0 < segs.1.distance ∧
    segs.1.distance ≤ segs.2.distance ∧ k < st.partial_sums.length ∧
    st1.mem = write_range st.mem segs.2.begin_
      (local_scan_values op init k (read_segment st.mem segs.1)) ∧
    st1.partial_sums = st.partial_sums.set k
      (st1.mem (segs.2.begin_ + (segs.1.distance - 1))) ∧
    st1.events = st.events ++ [k] := by
  unfold local_scan_step at h
  dsimp only at h
  by_cases hr : segs.1.rank < devices.length
  · rw [List.getElem?_eq_getElem hr] at h
    dsimp only at h
    by_cases h0 : segs.1.distance = 0
    · rw [if_pos h0] at h; cases h
    · rw [if_neg h0] at h
      by_cases h1 : segs.1.distance - 1 < segs.2.distance
      · rw [if_pos h1] at h
        by_cases h2 : k < st.partial_sums.length
        · rw [if_pos h2] at h
          injection h with h
          subst h
          exact ⟨hr, by omega, by omega, h2, rfl, rfl, rfl⟩
        · rw [if_neg h2] at h; cases h
      · rw [if_neg h1] at h; cases h
  · rw [List.getElem?_eq_none (by omega)] at h
    cases h

theorem local_scan_step_error {α : Type} (devices : List Nat) (op : α → α → α)
    (init : Option α) (k : Nat) (segs : remote_subrange × remote_subrange)
    (st : scan_state α) (e : scan_error)
    (h : local_scan_step devices op init k segs st = .error e) :
    e ≠ .unsupported_policy := by
  unfold local_scan_step at h
  dsimp only at h
  by_cases hr : segs.1.rank < devices.length
  · rw [List.getElem?_eq_getElem hr] at h
    dsimp only at h
    by_cases h0 : segs.1.distance = 0
    · rw [if_pos h0] at h; injection h with h; subst h; simp
    · rw [if_neg h0] at h
      by_cases h1 : segs.1.distance - 1 < segs.2.distance
      · rw [if_pos h1] at h
        by_cases h2 : k < st.partial_sums.length
        · rw [if_pos h2] at h; cases h
        · rw [if_neg h2] at h; injection h with h; subst h; simp
      · rw [if_neg h1] at h; injection h with h; subst h; simp
  · rw [List.getElem?_eq_none (by omega)] at h
    injection h with h; subst h; simp

theorem local_scan_loop_error {α : Type} (devices : List Nat) (op : α → α → α)
    (init : Option α) (zs : List (remote_subrange × remote_subrange)) (k : Nat)
    (st : scan_state α) (e : scan_error)
    (h : local_scan_loop devices op init k zs st = .error e) :
    e ≠ .unsupported_policy := by
  induction zs generalizing k st with
  | nil => cases h
  | cons z rest ih =>
    simp only [local_scan_loop] at h
    cases hs : local_scan_step devices op init k z st with
    | error e1 =>
      rw [hs] at h
      injection h with h
      subst h
      exact local_scan_step_error devices op init k z st e1 hs
    | ok st1 =>
      rw [hs] at h
      exact ih (k + 1) st1 h

theorem carry_step_inv {α : Type} (devices : List Nat) (op : α → α → α) (idx : Nat)
    (segs : remote_subrange × remote_subrange) (st st1 : scan_state α)
    (h : carry_step devices op idx segs st = .ok st1) :
    segs.2.rank < devices.length ∧
    ((idx = 0 ∧ st1 = st) ∨
     (0 < idx ∧ ∃ sum, st.partial_sums[idx - 1]? = some sum ∧
        st1.mem = write_range st.mem segs.2.begin_
          ((read_segment st.mem segs.2).map (fun x => op x sum)) ∧
        st1.partial_sums = st.partial_sums ∧ st1.events = st.events ++ [idx])) := by
  unfold carry_step at h
  dsimp only at h
  by_cases hr : segs.2.rank < devices.length
  · rw [List.getElem?_eq_getElem hr] at h
    dsimp only at h
    refine ⟨hr, ?_⟩
    by_cases h0 : 0 < idx
    · rw [if_pos h0] at h
      right
      cases hs : st.partial_sums[idx - 1]? with
      | none => rw [hs] at h; cases h
      | some sum =>
        rw [hs] at h
        injection h with h
        subst h
        exact ⟨h0, sum, rfl, rfl, rfl, rfl⟩
    · rw [if_neg h0] at h
      injection h with h
      left
      exact ⟨by omega, h.symm⟩
  · rw [List.getElem?_eq_none (by omega)] at h
    cases h

theorem carry_step_error {α : Type} (devices : List Nat) (op : α → α → α) (idx : Nat)
    (segs : remote_subrange × remote_subrange) (st : scan_state α) (e : scan_error)
    (h : carry_step devices op idx segs st = .error e) : e ≠ .unsupported_policy := by
  unfold carry_step at h
  dsimp only at h
  by_cases hr : segs.2.rank < devices.length
  · rw [List.getElem?_eq_getElem hr] at h
    dsimp only at h
    by_cases h0 : 0 < idx
    · rw [if_pos h0] at h
      cases hs : st.partial_sums[idx - 1]? with
      | none => rw [hs] at h; injection h with h; subst h; simp
      | some sum => rw [hs] at h; cases h
    · rw [if_neg h0] at h; cases h
  · rw [List.getElem?_eq_none (by omega)] at h
    injection h with h; subst h; simp

theorem carry_loop_error {α : Type} (devices : List Nat) (op : α → α → α)
    (zs : List (remote_subrange × remote_subrange)) (idx : Nat)
    (st : scan_state α) (e : scan_error)
    (h : carry_loop devices op idx zs st = .error e) : e ≠ .unsupported_policy := by
  induction zs generalizing idx st with
  | nil => cases h
  | cons z rest ih =>
    simp only [carry_loop] at h
    cases hs : carry_step devices op idx z st with
    | error e1 =>
      rw [hs] at h
      injection h with h
      subst h
      exact carry_step_error devices op idx z st e1 hs
    | ok st1 =>
      rw [hs] at h
      exact ih (idx + 1) st1 h

theorem inclusive_scan_impl_device_error {α : Type} [Inhabited α] (devices : List Nat)
    (r o : distributed_range) (op : α → α → α) (init : Option α) (m : Mem α) :
    inclusive_scan_impl_ (.device_policy devices) r o op init m
      ≠ .error .unsupported_policy := by
  intro h
  simp only [inclusive_scan_impl_] at h
  cases h1 : local_scan_phase devices (zipped_segments r o) op init m with
  | error e =>
    rw [h1] at h
    injection h with h
    subst h
    unfold local_scan_phase at h1
    cases hd : devices[0]? with
    | none => rw [hd] at h1; cases h1
    | some d =>
      rw [hd] at h1
      exact local_scan_loop_error devices op init _ 0 _ _ h1 rfl
  | ok st1 =>
    rw [h1] at h
    dsimp only at h
    cases h3 : carry_loop devices op 0 (zipped_segments r o) (carry_scan op st1) with
    | error e =>
      rw [h3] at h
      injection h with h
      subst h
      exact carry_loop_error devices op _ 0 _ _ h3 rfl
    | ok st3 => rw [h3] at h; cases h

/-- C11: for the sequential and the explicit-parallel policy every overload of
`inclusive_scan` fails with the unsupported-policy error, whatever the ranges, operator,
seed and memory (no memory is returned, nothing was touched); `inclusive_scan_impl_` fails
in this way exactly when the policy is not a device policy, so only a device policy runs
the algorithm. -/
theorem inclusive_scan_policy_dispatch {α : Type} [Inhabited α] [Add α]
    (policy : execution_policy) (r o : distributed_range)
    (first last d_first : distributed_iterator) (op : α → α → α) (v0 : α)
    (init : Option α) (m : Mem α) :
    (inclusive_scan_impl_ policy r o op init m = .error .unsupported_policy
      ↔ ∀ devices, policy ≠ .device_policy devices) ∧
    inclusive_scan_impl_ .sequential r o op init m = .error .unsupported_policy ∧
    inclusive_scan_impl_ .parallel_explicit r o op init m = .error .unsupported_policy ∧
    inclusive_scan .sequential r o m = .error .unsupported_policy ∧
    inclusive_scan .parallel_explicit r o m = .error .unsupported_policy ∧
    inclusive_scan_op .sequential r o op m = .error .unsupported_policy ∧
    inclusive_scan_op .parallel_explicit r o op m = .error .unsupported_policy ∧
    inclusive_scan_op_init .sequential r o op v0 m = .error .unsupported_policy ∧
    inclusive_scan_op_init .parallel_explicit r o op v0 m = .error .unsupported_policy ∧
    inclusive_scan_iter .sequential first last d_first m = .error .unsupported_policy ∧
    inclusive_scan_iter .parallel_explicit first last d_first m
      = .error .unsupported_policy ∧
    inclusive_scan_iter_op .sequential first last d_first op m
      = .error .unsupported_policy ∧
    inclusive_scan_iter_op .parallel_explicit first last d_first op m
      = .error .unsupported_policy ∧
    inclusive_scan_iter_op_init .sequential first last d_first op v0 m
      = .error .unsupported_policy ∧
    inclusive_scan_iter_op_init .parallel_explicit first last d_first op v0 m
      = .error .unsupported_policy := by
  refine ⟨?_, rfl, rfl, rfl, rfl, rfl, rfl, rfl, rfl, rfl, rfl, rfl, rfl, rfl, rfl⟩
  cases policy with
  | sequential => exact ⟨fun _ _ h => (by cases h), fun _ => rfl⟩
  | parallel_explicit => exact ⟨fun _ _ h => (by cases h), fun _ => rfl⟩
  | device_policy devices =>
    constructor
    · intro h
      exact absurd h (inclusive_scan_impl_device_error devices r o op init m)
    · intro h
      exact absurd rfl (h devices)

/-- C12: `remote_subrange(begin, end, k)` has `begin()`, `end()` and `rank()` equal to
`begin`, `end` and `k`; the constructor from a range and a rank gives the range's begin and
end and that rank; the constructor from a remote range gives a view with the same begin,
end and rank, so that re-wrapping a `remote_subrange` is the identity. -/
theorem remote_subrange_constructors (first last k : Nat) (r : Nat × Nat)
    (v : remote_subrange) :
    (remote_subrange.of_iterators first last k).begin_ = first ∧
    (remote_subrange.of_iterators first last k).end_ = last ∧
    (remote_subrange.of_iterators first last k).rank = k ∧
    (remote_subrange.of_range r k).begin_ = r.1 ∧
    (remote_subrange.of_range r k).end_ = r.2 ∧
    (remote_subrange.of_range r k).rank = k ∧
    (remote_subrange.of_remote_range v).begin_ = v.begin_ ∧
    (remote_subrange.of_remote_range v).end_ = v.end_ ∧
    (remote_subrange.of_remote_range v).rank = v.rank ∧
    remote_subrange.of_remote_range v = v ∧
    remote_subrange.of_remote_range (remote_subrange.of_iterators first last k)
      = remote_subrange.of_iterators first last k :=
  ⟨rfl, rfl, rfl, rfl, rfl, rfl, rfl, rfl, rfl, rfl, rfl⟩

theorem device_ref_read_eq {α : Type} (b : Bool) (r : device_ref) (m : Mem α) :
    device_ref.read b r m = m r.pointer_ := by
  cases b <;> rfl

theorem device_ref_assign_mem {α : Type} (b : Bool) (r : device_ref) (v : α) (m : Mem α) :
    (device_ref.assign b r v m).2 = m.store r.pointer_ v := by
  cases b <;> rfl

theorem assign_each_other {α : Type} (b : Bool) (ps : List Nat) (vs : List α) (m : Mem α)
    (q : Nat) (hq : q ∉ ps) : device_ref.assign_each b ps vs m q = m q := by
  induction ps generalizing vs m with
  | nil => cases vs <;> rfl
  | cons p ps ih =>
    cases vs with
    | nil => rfl
    | cons v vs =>
      simp only [device_ref.assign_each]
      rw [ih vs _ (fun h => hq (List.mem_cons_of_mem _ h)), device_ref_assign_mem]
      have hne : q ≠ p := fun h => hq (h ▸ List.mem_cons_self _ _)
      simp [Mem.store, hne]

/-- C17: assigning through `device_ref(p)` leaves the value read through `device_ref(q)`
as it was, for every memory, value and pair of addresses `p ≠ q`; and assigning `n` values
one after the other to `n` pairwise distinct positions, then reading the positions back in
the same order, gives back the same sequence of values. -/
theorem device_ref_assign_frame {α : Type} (write_on_device read_on_device : Bool)
    (p q : Nat) (v : α) (m : Mem α) (ps : List Nat) (vs : List α)
    (hpq : p ≠ q) (hnodup : ps.Nodup) (hlen : ps.length = vs.length) :
    device_ref.read read_on_device (device_ref.mk q)
        (device_ref.assign write_on_device (device_ref.mk p) v m).2
      = device_ref.read read_on_device (device_ref.mk q) m ∧
    device_ref.read_each read_on_device ps
        (device_ref.assign_each write_on_device ps vs m) = vs := by
  constructor
  · rw [device_ref_read_eq, device_ref_read_eq, device_ref_assign_mem]
    simp [Mem.store, Ne.symm hpq]
  · induction ps generalizing vs m with
    | nil =>
      cases vs with
      | nil => rfl
      | cons v vs => simp at hlen
    | cons p1 ps ih =>
      cases vs with
      | nil => simp at hlen
      | cons v1 vs =>
        rw [List.nodup_cons] at hnodup
        simp only [List.length_cons, Nat.add_right_cancel_iff] at hlen
        simp only [device_ref.read_each, List.map_cons, device_ref.assign_each]
        congr 1
        · rw [device_ref_read_eq]
          show device_ref.assign_each write_on_device ps vs _ p1 = v1
          rw [assign_each_other write_on_device ps vs _ p1 hnodup.1, device_ref_assign_mem]
          simp [Mem.store]
        · exact ih _ vs hnodup.2 hlen

theorem device_ref_assign_frame_witness :
    (3 : Nat) ≠ 5 ∧ [10, 11, 12, 13].Nodup ∧
    [10, 11, 12, 13].length = [(1 : Int), 2, 3, 4].length ∧
    device_ref.read false (device_ref.mk 5)
        (device_ref.assign true (device_ref.mk 3) 42 example_mem).2
      = device_ref.read false (device_ref.mk 5) example_mem ∧
    device_ref.read_each false [10, 11, 12, 13]
        (device_ref.assign_each true [10, 11, 12, 13] [1, 2, 3, 4] example_mem)
      = [1, 2, 3, 4] :=
  ⟨by decide, by decide, rfl,
    device_ref_assign_frame true false 3 5 42 example_mem [10, 11, 12, 13] [1, 2, 3, 4]
      (by decide) (by decide) rfl⟩

/-! ## Completion and frame of a call -/

theorem local_scan_loop_ok {α : Type} [Inhabited α] (devices : List Nat) (op : α → α → α)
    (init : Option α) (zs : List (remote_subrange × remote_subrange)) (k : Nat)
    (st : scan_state α)
    (hr : ∀ z ∈ zs, z.1.rank < devices.length)
    (hpos : ∀ z ∈ zs, 0 < z.1.distance)
    (hsz : ∀ z ∈ zs, z.1.distance = z.2.distance)
    (hk : k + zs.length ≤ st.partial_sums.length) :
    ∃ st1, local_scan_loop devices op init k zs st = .ok st1 ∧
      st1.partial_sums.length = st.partial_sums.length := by
  induction zs generalizing k st with
  | nil => exact ⟨st, rfl, rfl⟩
  | cons z rest ih =>
    simp only [List.length_cons] at hk
    have hstep := local_scan_step_ok devices op init k z st (hr z (List.mem_cons_self _ _))
      (hpos z (List.mem_cons_self _ _)) (hsz z (List.mem_cons_self _ _)) (by omega)
    obtain ⟨st1, hloop, hlen⟩ := ih (k + 1)
      { mem := write_range st.mem z.2.begin_
          (local_scan_values op init k (read_segment st.mem z.1))
        partial_sums := st.partial_sums.set k
          (last_value (local_scan_values op init k (read_segment st.mem z.1)))
        events := st.events ++ [k] }
      (fun w hw => hr w (List.mem_cons_of_mem _ hw))
      (fun w hw => hpos w (List.mem_cons_of_mem _ hw))
      (fun w hw => hsz w (List.mem_cons_of_mem _ hw))
      (by simp only [List.length_set]; omega)
    refine ⟨st1, ?_, ?_⟩
    · simp only [local_scan_loop, hstep]
      exact hloop
    · rw [hlen]
      simp

theorem carry_loop_ok {α : Type} (devices : List Nat) (op : α → α → α)
    (zs : List (remote_subrange × remote_subrange)) (idx : Nat) (st : scan_state α)
    (hr : ∀ z ∈ zs, z.2.rank < devices.length)
    (hk : idx + zs.length ≤ st.partial_sums.length + 1) :
    ∃ st1, carry_loop devices op idx zs st = .ok st1 := by
  induction zs generalizing idx st with
  | nil => exact ⟨st, rfl⟩
  | cons z rest ih =>
    simp only [List.length_cons] at hk
    rcases carry_step_ok devices op idx z st (hr z (List.mem_cons_self _ _)) (by omega)
      with hstep | ⟨-, hstep⟩
    · obtain ⟨st1, hloop⟩ := ih (idx + 1)
        { mem := write_range st.mem z.2.begin_
            (carry_values op st.partial_sums idx (read_segment st.mem z.2))
          partial_sums := st.partial_sums
          events := st.events ++ (if 0 < idx then [idx] else []) }
        (fun w hw => hr w (List.mem_cons_of_mem _ hw))
        (by show idx + 1 + rest.length ≤ st.partial_sums.length + 1; omega)
      exact ⟨st1, by simp only [carry_loop, hstep]; exact hloop⟩
    · obtain ⟨st1, hloop⟩ := ih (idx + 1) st
        (fun w hw => hr w (List.mem_cons_of_mem _ hw)) (by omega)
      exact ⟨st1, by simp only [carry_loop, hstep]; exact hloop⟩

theorem local_scan_loop_frame {α : Type} (devices : List Nat) (op : α → α → α)
    (init : Option α) (zs : List (remote_subrange × remote_subrange)) (k : Nat)
    (st st1 : scan_state α) (h : local_scan_loop devices op init k zs st = .ok st1)
    (a : Nat) (ha : ∀ z ∈ zs, ¬ in_window z.2 a) : st1.mem a = st.mem a := by
  induction zs generalizing k st with
  | nil =>
    simp only [local_scan_loop] at h
    injection h with h
    rw [h]
  | cons z rest ih =>
    simp only [local_scan_loop] at h
    cases hs : local_scan_step devices op init k z st with
    | error e => rw [hs] at h; cases h
    | ok st2 =>
      rw [hs] at h
      dsimp only at h
      rw [ih (k + 1) st2 h (fun w hw => ha w (List.mem_cons_of_mem _ hw))]
      obtain ⟨-, hpos, hle, -, hmem, -, -⟩ := local_scan_step_inv devices op init k z st st2 hs
      rw [hmem]
      apply write_range_outside
      have hz := ha z (List.mem_cons_self _ _)
      rw [local_scan_values_length]
      unfold read_segment
      rw [read_range_length]
      unfold in_window at hz
      unfold remote_subrange.distance at *
      omega

theorem carry_loop_frame {α : Type} (devices : List Nat) (op : α → α → α)
    (zs : List (remote_subrange × remote_subrange)) (idx : Nat)
    (st st1 : scan_state α) (h : carry_loop devices op idx zs st = .ok st1)
    (a : Nat) (ha : ∀ z ∈ zs, ¬ in_window z.2 a) : st1.mem a = st.mem a := by
  induction zs generalizing idx st with
  | nil =>
    simp only [carry_loop] at h
    injection h with h
    rw [h]
  | cons z rest ih =>
    simp only [carry_loop] at h
    cases hs : carry_step devices op idx z st with
    | error e => rw [hs] at h; cases h
    | ok st2 =>
      rw [hs] at h
      dsimp only at h
      rw [ih (idx + 1) st2 h (fun w hw => ha w (List.mem_cons_of_mem _ hw))]
      obtain ⟨-, hcase⟩ := carry_step_inv devices op idx z st st2 hs
      rcases hcase with ⟨-, rfl⟩ | ⟨-, sum, -, hmem, -, -⟩
      · rfl
      · rw [hmem]
        apply write_range_frame st.mem z.2 _ _ a (ha z (List.mem_cons_self _ _))
        rw [List.length_map]
        exact read_range_length _ _ _

/-- Every completed call on a device policy leaves the memory outside the output segments
as it was. -/
theorem inclusive_scan_impl_frame {α : Type} [Inhabited α] (devices : List Nat)
    (r o : distributed_range) (op : α → α → α) (init : Option α) (m m1 : Mem α)
    (h : inclusive_scan_impl_ (.device_policy devices) r o op init m = .ok m1)
    (a : Nat) (ha : ∀ z ∈ zipped_segments r o, ¬ in_window z.2 a) : m1 a = m a := by
  simp only [inclusive_scan_impl_] at h
  cases h1 : local_scan_phase devices (zipped_segments r o) op init m with
  | error e => rw [h1] at h; cases h
  | ok st1 =>
    rw [h1] at h
    dsimp only at h
    cases h3 : carry_loop devices op 0 (zipped_segments r o) (carry_scan op st1) with
    | error e => rw [h3] at h; cases h
    | ok st3 =>
      rw [h3] at h
      injection h with h
      subst h
      rw [carry_loop_frame devices op _ 0 _ st3 h3 a ha]
      unfold local_scan_phase at h1
      cases hd : devices[0]? with
      | none => rw [hd] at h1; cases h1
      | some d =>
        rw [hd] at h1
        exact local_scan_loop_frame devices op init _ 0 _ st1 h1 a ha

/-- A call on a device policy with a root device, ranks that name devices, non-empty
input segments and output segments as long as their input segments completes. -/
theorem inclusive_scan_impl_completes {α : Type} [Inhabited α] (devices : List Nat)
    (r o : distributed_range) (op : α → α → α) (init : Option α) (m : Mem α)
    (hdev : 0 < devices.length)
    (hranks : ∀ z ∈ zipped_segments r o,
      z.1.rank < devices.length ∧ z.2.rank < devices.length)
    (hne : segments_nonempty (zipped_segments r o))
    (hsizes : ∀ z ∈ zipped_segments r o, z.1.distance = z.2.distance) :
    ∃ m1, inclusive_scan_impl_ (.device_policy devices) r o op init m = .ok m1 := by
  obtain ⟨st1, h1, hlen1⟩ := local_scan_loop_ok devices op init (zipped_segments r o) 0
    { mem := m, partial_sums := List.replicate (zipped_segments r o).length default,
      events := [] }
    (fun z hz => (hranks z hz).1) hne hsizes (by simp)
  obtain ⟨st3, h3⟩ := carry_loop_ok devices op (zipped_segments r o) 0 (carry_scan op st1)
    (fun z hz => (hranks z hz).2)
    (by simp only [carry_scan, dpl_inclusive_scan_length, hlen1, List.length_replicate]
        omega)
  refine ⟨st3.mem, ?_⟩
  simp only [inclusive_scan_impl_, local_scan_phase, List.getElem?_eq_getElem hdev, h1, h3]

/-- C19: when the device list is non-empty, every segment rank is smaller than the number
of devices, every input segment is non-empty and every output segment is as long as its
input segment, the call on a device policy completes (no error branch is reached), and
every index it uses is in bounds: `devices[0]`, `devices[rank]` for both segments of a
pair, element `dist - 1` of the output segment with `dist > 0`, `partial_sums[segment_id]`
for every segment index (the buffer has one slot per segment), and `partial_sums[idx - 1]`
for every later segment index. -/
theorem inclusive_scan_no_error_branch {α : Type} [Inhabited α] (devices : List Nat)
    (r o : distributed_range) (op : α → α → α) (init : Option α) (m : Mem α)
    (hdev : 0 < devices.length)
    (hranks : ∀ z ∈ zipped_segments r o,
      z.1.rank < devices.length ∧ z.2.rank < devices.length)
    (hne : segments_nonempty (zipped_segments r o))
    (hsizes : ∀ z ∈ zipped_segments r o, z.1.distance = z.2.distance) :
    (∃ m1, inclusive_scan_impl_ (.device_policy devices) r o op init m = .ok m1) ∧
    (devices[0]?).isSome ∧
    (∀ z ∈ zipped_segments r o,
      (devices[z.1.rank]?).isSome ∧ (devices[z.2.rank]?).isSome ∧
      0 < z.1.distance ∧ z.1.distance - 1 < z.2.distance) ∧
    (initial_state (zipped_segments r o) m).partial_sums.length
      = (zipped_segments r o).length ∧
    (∃ st1, local_scan_phase devices (zipped_segments r o) op init m = .ok st1 ∧
      st1.partial_sums.length = (zipped_segments r o).length ∧
      ∀ idx, 0 < idx → idx < (zipped_segments r o).length →
        ((carry_scan op st1).partial_sums[idx - 1]?).isSome) := by
  refine ⟨inclusive_scan_impl_completes devices r o op init m hdev hranks hne hsizes,
    ?_, ?_, ?_, ?_⟩
  · rw [List.getElem?_eq_getElem hdev]; rfl
  · intro z hz
    have h1 := hranks z hz
    have h2 := hne z hz
    have h3 := hsizes z hz
    rw [List.getElem?_eq_getElem h1.1, List.getElem?_eq_getElem h1.2]
    exact ⟨rfl, rfl, h2, by omega⟩
  · simp [initial_state]
  · obtain ⟨st1, h1, hlen1⟩ := local_scan_loop_ok devices op init (zipped_segments r o) 0
      { mem := m, partial_sums := List.replicate (zipped_segments r o).length default,
        events := [] }
      (fun z hz => (hranks z hz).1) hne hsizes (by simp)
    simp only [List.length_replicate] at hlen1
    refine ⟨st1, ?_, hlen1, ?_⟩
    · simp only [local_scan_phase, List.getElem?_eq_getElem hdev, h1]
    · intro idx h0 hidx
      have hlt : idx - 1 < (carry_scan op st1).partial_sums.length := by
        simp only [carry_scan, dpl_inclusive_scan_length, hlen1]
        omega
      rw [List.getElem?_eq_getElem hlt]
      rfl

theorem inclusive_scan_no_error_branch_witness :
    0 < example_devices.length ∧
    (∀ z ∈ zipped_segments example_in example_out,
      z.1.rank < example_devices.length ∧ z.2.rank < example_devices.length) ∧
    segments_nonempty (zipped_segments example_in example_out) ∧
    (∀ z ∈ zipped_segments example_in example_out, z.1.distance = z.2.distance) ∧
    ((∃ m1, inclusive_scan_impl_ (.device_policy example_devices) example_in example_out
        left_operand (some 7) example_mem = .ok m1) ∧
    (example_devices[0]?).isSome ∧
    (∀ z ∈ zipped_segments example_in example_out,
      (example_devices[z.1.rank]?).isSome ∧ (example_devices[z.2.rank]?).isSome ∧
      0 < z.1.distance ∧ z.1.distance - 1 < z.2.distance) ∧
    (initial_state (zipped_segments example_in example_out) example_mem).partial_sums.length
      = (zipped_segments example_in example_out).length ∧
    (∃ st1, local_scan_phase example_devices (zipped_segments example_in example_out)
        left_operand (some 7) example_mem = .ok st1 ∧
      st1.partial_sums.length = (zipped_segments example_in example_out).length ∧
      ∀ idx, 0 < idx → idx < (zipped_segments example_in example_out).length →
        ((carry_scan left_operand st1).partial_sums[idx - 1]?).isSome)) :=
  ⟨by decide, by decide, by decide, by decide,
    inclusive_scan_no_error_branch example_devices example_in example_out left_operand
      (some 7) example_mem (by decide) (by decide) (by decide) (by decide)⟩

/-- C20: when no output segment shares an address with an input segment (and the call
completes: root device, ranks that name devices, non-empty segments, output segments as
long as their input segments), the call leaves every address outside the output segments
as it was, in particular every element of every input segment; the only other thing the
loops write is the `partial_sums` vector, which is not part of the memory. -/
theorem inclusive_scan_input_unchanged {α : Type} [Inhabited α] (devices : List Nat)
    (r o : distributed_range) (op : α → α → α) (init : Option α) (m : Mem α)
    (hdev : 0 < devices.length)
    (hranks : ∀ z ∈ zipped_segments r o,
      z.1.rank < devices.length ∧ z.2.rank < devices.length)
    (hne : segments_nonempty (zipped_segments r o))
    (hsizes : ∀ z ∈ zipped_segments r o, z.1.distance = z.2.distance)
    (hdistinct : ∀ s_in ∈ r, ∀ s_out ∈ o, disjoint_segments s_out s_in) :
    ∃ m1, inclusive_scan_impl_ (.device_policy devices) r o op init m = .ok m1 ∧
      (∀ a, (∀ s_out ∈ o, ¬ in_window s_out a) → m1 a = m a) ∧
      (∀ s_in ∈ r, ∀ a, in_window s_in a → m1 a = m a) ∧
      read_segments m1 r = read_segments m r ∧
      read_all m1 r = read_all m r := by
  obtain ⟨m1, h⟩ := inclusive_scan_impl_completes devices r o op init m hdev hranks hne hsizes
  have hframe : ∀ a, (∀ s_out ∈ o, ¬ in_window s_out a) → m1 a = m a := by
    intro a ha
    apply inclusive_scan_impl_frame devices r o op init m m1 h a
    intro z hz
    have hz_pair : (z.1, z.2) ∈ List.zip r o := hz
    exact ha z.2 (List.of_mem_zip hz_pair).2
  have hin : ∀ s_in ∈ r, ∀ a, in_window s_in a → m1 a = m a := by
    intro s_in hs a ha
    apply hframe
    intro s_out hso hcontra
    exact not_in_window_of_disjoint s_out s_in a (hdistinct s_in hs s_out hso) hcontra ha
  have hsegs : read_segments m1 r = read_segments m r := by
    unfold read_segments
    apply List.map_congr_left
    intro s hs
    exact read_segment_frame m1 m s (hin s hs)
  refine ⟨m1, h, hframe, hin, hsegs, ?_⟩
  unfold read_all
  rw [hsegs]

theorem inclusive_scan_input_unchanged_witness :
    0 < example_devices.length ∧
    (∀ z ∈ zipped_segments example_in example_out,
      z.1.rank < example_devices.length ∧ z.2.rank < example_devices.length) ∧
    segments_nonempty (zipped_segments example_in example_out) ∧
    (∀ z ∈ zipped_segments example_in example_out, z.1.distance = z.2.distance) ∧
    (∀ s_in ∈ example_in, ∀ s_out ∈ example_out, disjoint_segments s_out s_in) ∧
    ∃ m1, inclusive_scan_impl_ (.device_policy example_devices) example_in example_out
        left_operand (some 7) example_mem = .ok m1 ∧
      (∀ a, (∀ s_out ∈ example_out, ¬ in_window s_out a) → m1 a = example_mem a) ∧
      (∀ s_in ∈ example_in, ∀ a, in_window s_in a → m1 a = example_mem a) ∧
      read_segments m1 example_in = read_segments example_mem example_in ∧
      read_all m1 example_in = read_all example_mem example_in :=
  ⟨by decide, by decide, by decide, by decide, by decide,
    inclusive_scan_input_unchanged example_devices example_in example_out left_operand
      (some 7) example_mem (by decide) (by decide) (by decide) (by decide) (by decide)⟩

/-! ## The partial sums -/

theorem local_values_none {α : Type} (op : α → α → α) (k : Nat) (xss : List (List α)) :
    local_values op none k xss = xss.map (dpl_inclusive_scan op) := by
  induction xss generalizing k with
  | nil => rfl
  | cons xs rest ih =>
    simp only [local_values, List.map_cons, ih]
    congr 1
    cases k <;> rfl

theorem segment_lasts_none {α : Type} [Inhabited α] (op : α → α → α) (xss : List (List α)) :
    segment_lasts op none xss = xss.map (segment_total op) := by
  unfold segment_lasts
  rw [local_values_none, List.map_map]
  rfl

theorem scan_from_getElem? {α : Type} (op : α → α → α) (acc : α) (xs : List α) (i : Nat)
    (h : i < xs.length) :
    (scan_from op acc xs)[i]? = some ((xs.take (i + 1)).foldl op acc) := by
  induction xs generalizing acc i with
  | nil => simp at h
  | cons x xs ih =>
    cases i with
    | zero => simp [scan_from]
    | succ i =>
      simp only [List.length_cons] at h
      simp only [scan_from, List.getElem?_cons_succ, List.take_succ_cons, List.foldl_cons]
      exact ih (op acc x) i (by omega)

theorem foldl_eq_op_segment_total {α : Type} [Inhabited α] (op : α → α → α)
    (hassoc : ∀ a b c, op (op a b) c = op a (op b c)) (acc x : α) (xs : List α) :
    (x :: xs).foldl op acc = op acc (segment_total op (x :: xs)) := by
  simp only [segment_total, dpl_inclusive_scan, last_value_cons_scan_from, List.foldl_cons]
  exact foldl_of_assoc op hassoc acc x xs

theorem foldl_flatten_totals {α : Type} [Inhabited α] (op : α → α → α)
    (hassoc : ∀ a b c, op (op a b) c = op a (op b c)) (acc : α) (xss : List (List α))
    (hne : ∀ xs ∈ xss, xs ≠ []) :
    xss.flatten.foldl op acc = (xss.map (segment_total op)).foldl op acc := by
  induction xss generalizing acc with
  | nil => rfl
  | cons xs rest ih =>
    obtain ⟨x, xs1, rfl⟩ := List.exists_cons_of_ne_nil (hne xs (List.mem_cons_self _ _))
    rw [List.flatten_cons, List.foldl_append, List.map_cons,
      ih _ (fun ys hys => hne ys (List.mem_cons_of_mem _ hys)),
      foldl_eq_op_segment_total op hassoc acc x xs1]
    rfl

/-- The scan of the segment totals, for an associative operator on non-empty segments:
entry `k` is the combination of all elements of the segments `0..k`. -/
theorem scan_totals_getElem? {α : Type} [Inhabited α] (op : α → α → α)
    (hassoc : ∀ a b c, op (op a b) c = op a (op b c)) (xss : List (List α))
    (hne : ∀ xs ∈ xss, xs ≠ []) (k : Nat) (hk : k < xss.length) :
    (dpl_inclusive_scan op (xss.map (segment_total op)))[k]?
      = combine op ((xss.take (k + 1)).flatten) := by
  cases xss with
  | nil => simp at hk
  | cons xs rest =>
    obtain ⟨x, xs1, rfl⟩ := List.exists_cons_of_ne_nil (hne xs (List.mem_cons_self _ _))
    have hrest : ∀ ys ∈ rest, ys ≠ [] := fun ys hys => hne ys (List.mem_cons_of_mem _ hys)
    have ht : segment_total op (x :: xs1) = xs1.foldl op x := by
      simp only [segment_total, dpl_inclusive_scan, last_value_cons_scan_from]
    simp only [List.map_cons, dpl_inclusive_scan, List.take_succ_cons, List.flatten_cons,
      List.cons_append, combine, List.foldl_append]
    cases k with
    | zero => simp [ht]
    | succ k =>
      simp only [List.length_cons] at hk
      rw [List.getElem?_cons_succ,
        scan_from_getElem? op _ _ k (by rw [List.length_map]; omega), ← List.map_take,
        ← foldl_flatten_totals op hassoc _ _ (fun ys hys => hrest ys (List.mem_of_mem_take hys)),
        ht]

theorem getLast?_eq_some_last_value {α : Type} [Inhabited α] (ys : List α) (h : ys ≠ []) :
    ys.getLast? = some (last_value ys) := by
  unfold last_value
  rw [List.getLast?_eq_getLast ys h]
  rfl

/-- C13: after the scan of `partial_sums` on the root device, in a call without seed on
non-empty, well laid out segments with an associative operator, entry `k` of
`partial_sums` is the combination, in global order, of all input elements of the segments
`0..k`, for every segment index `k`. -/
theorem partial_sums_after_carry_scan {α : Type} [Inhabited α] (devices : List Nat)
    (r o : distributed_range) (op : α → α → α) (m : Mem α)
    (hassoc : ∀ a b c, op (op a b) c = op a (op b c))
    (hlen : r.length = o.length)
    (hlay : layout_ok devices (zipped_segments r o))
    (hne : segments_nonempty (zipped_segments r o)) :
    ∃ st1, local_scan_phase devices (zipped_segments r o) op none m = .ok st1 ∧
      (carry_scan op st1).partial_sums.length = r.length ∧
      ∀ k, k < r.length →
        (carry_scan op st1).partial_sums[k]?
          = combine op (((read_segments m r).take (k + 1)).flatten) := by
  obtain ⟨st1, h1, -, -, hps, -⟩ :=
    local_scan_phase_spec devices (zipped_segments r o) op none m hlay hne
  rw [zipped_segments_fst r o hlen, segment_lasts_none] at hps
  refine ⟨st1, h1, ?_, ?_⟩
  · simp only [carry_scan, dpl_inclusive_scan_length, hps, List.length_map, read_segments]
  · intro k hk
    simp only [carry_scan, hps]
    exact scan_totals_getElem? op hassoc _ (read_segments_ne_nil m r o hlen hne) k
      (by simp only [read_segments, List.length_map]; exact hk)

theorem partial_sums_after_carry_scan_witness :
    (∀ a b c : Int, a + b + c = a + (b + c)) ∧
    example_in.length = example_out.length ∧
    layout_ok example_devices (zipped_segments example_in example_out) ∧
    segments_nonempty (zipped_segments example_in example_out) ∧
    ∃ st1, local_scan_phase example_devices (zipped_segments example_in example_out)
        (fun a b => a + b) none example_mem = .ok st1 ∧
      (carry_scan (fun a b => a + b) st1).partial_sums.length = example_in.length ∧
      ∀ k, k < example_in.length →
        (carry_scan (fun a b => a + b) st1).partial_sums[k]?
          = combine (fun a b => a + b)
              (((read_segments example_mem example_in).take (k + 1)).flatten) :=
  ⟨fun a b c => add_assoc a b c, rfl, by decide, by decide,
    partial_sums_after_carry_scan example_devices example_in example_out (fun a b => a + b)
      example_mem (fun a b c => add_assoc a b c) rfl (by decide) (by decide)⟩

/-- C14: after the first loop on non-empty, well laid out segments the `partial_sums`
vector has one slot per segment and slot `k` holds the last element of the locally scanned
output segment `k`; and every iteration of the loop that completes writes the slot of its
own `segment_id` (with element `dist - 1` of its output segment) and leaves the length and
every other slot of the vector as they were. -/
theorem partial_sums_after_local_scan {α : Type} [Inhabited α] (devices : List Nat)
    (r o : distributed_range) (op : α → α → α) (init : Option α) (m : Mem α)
    (hlay : layout_ok devices (zipped_segments r o))
    (hne : segments_nonempty (zipped_segments r o)) :
    ∃ st1, local_scan_phase devices (zipped_segments r o) op init m = .ok st1 ∧
      st1.partial_sums.length = (zipped_segments r o).length ∧
      (∀ (k : Nat) (z : remote_subrange × remote_subrange), (zipped_segments r o)[k]? = some z →
        st1.partial_sums[k]? = (read_segment st1.mem z.2).getLast?) ∧
      (∀ k z (st st2 : scan_state α), local_scan_step devices op init k z st = .ok st2 →
        st2.partial_sums.length = st.partial_sums.length ∧
        st2.partial_sums[k]? = some (st2.mem (z.2.begin_ + (z.1.distance - 1))) ∧
        ∀ j, j ≠ k → st2.partial_sums[j]? = st.partial_sums[j]?) := by
  obtain ⟨st1, h1, -, houts, hps, -⟩ :=
    local_scan_phase_spec devices (zipped_segments r o) op init m hlay hne
  have hps2 : st1.partial_sums
      = (read_segments st1.mem ((zipped_segments r o).map Prod.snd)).map last_value := by
    rw [hps, houts]
    rfl
  refine ⟨st1, h1, ?_, ?_, ?_⟩
  · rw [hps2]
    simp [read_segments]
  · intro k z hz
    have hzmem : z ∈ zipped_segments r o := List.getElem?_mem hz
    have hnonempty : read_segment st1.mem z.2 ≠ [] := by
      intro h0
      have hl := congrArg List.length h0
      simp only [read_segment, read_range_length, List.length_nil] at hl
      have := hne z hzmem
      have := hlay.2.2.1 z hzmem
      omega
    rw [getLast?_eq_some_last_value _ hnonempty, hps2]
    simp only [read_segments, List.getElem?_map, hz, Option.map_some']
  · intro k z st st2 hstep
    obtain ⟨-, -, -, hk, -, hps3, -⟩ := local_scan_step_inv devices op init k z st st2 hstep
    refine ⟨?_, ?_, ?_⟩
    · rw [hps3, List.length_set]
    · rw [hps3, List.getElem?_set_self hk]
    · intro j hj
      rw [hps3, List.getElem?_set_ne (Ne.symm hj)]

theorem partial_sums_after_local_scan_witness :
    layout_ok example_devices (zipped_segments example_in example_out) ∧
    segments_nonempty (zipped_segments example_in example_out) ∧
    ∃ st1, local_scan_phase example_devices (zipped_segments example_in example_out)
        left_operand (some 7) example_mem = .ok st1 ∧
      st1.partial_sums.length = (zipped_segments example_in example_out).length ∧
      (∀ (k : Nat) (z : remote_subrange × remote_subrange), (zipped_segments example_in example_out)[k]? = some z →
        st1.partial_sums[k]? = (read_segment st1.mem z.2).getLast?) ∧
      (∀ k z (st st2 : scan_state Int),
        local_scan_step example_devices left_operand (some 7) k z st = .ok st2 →
        st2.partial_sums.length = st.partial_sums.length ∧
        st2.partial_sums[k]? = some (st2.mem (z.2.begin_ + (z.1.distance - 1))) ∧
        ∀ j, j ≠ k → st2.partial_sums[j]? = st.partial_sums[j]?) :=
  ⟨by decide, by decide,
    partial_sums_after_local_scan example_devices example_in example_out left_operand
      (some 7) example_mem (by decide) (by decide)⟩

theorem carry_loop_zero_cons {α : Type} (devices : List Nat) (op : α → α → α)
    (z : remote_subrange × remote_subrange) (rest : List (remote_subrange × remote_subrange))
    (st st3 : scan_state α) (h : carry_loop devices op 0 (z :: rest) st = .ok st3) :
    carry_loop devices op 1 rest st = .ok st3 := by
  simp only [carry_loop] at h
  cases hs : carry_step devices op 0 z st with
  | error e => rw [hs] at h; cases h
  | ok st2 =>
    rw [hs] at h
    dsimp only at h
    obtain ⟨-, hcase⟩ := carry_step_inv devices op 0 z st st2 hs
    rcases hcase with ⟨-, rfl⟩ | ⟨h0, -⟩
    · exact h
    · omega

/-- C15: on non-empty, well laid out segments, for every operator and optional seed: after
the first loop the output of segment 0 is the global inclusive scan restricted to segment
0 and the last loop leaves it unchanged; for every segment index `idx > 0` the last loop
replaces every element `x` of the output segment by `op(x, partial_sums[idx - 1])`; and
the last loop changes no address outside the output segments of index `> 0`. -/
theorem carry_application_effect {α : Type} [Inhabited α] (devices : List Nat)
    (r o : distributed_range) (op : α → α → α) (init : Option α) (m : Mem α)
    (hlen : r.length = o.length)
    (hlay : layout_ok devices (zipped_segments r o))
    (hne : segments_nonempty (zipped_segments r o)) :
    ∃ st1 st3, local_scan_phase devices (zipped_segments r o) op init m = .ok st1 ∧
      carry_loop devices op 0 (zipped_segments r o) (carry_scan op st1) = .ok st3 ∧
      inclusive_scan_impl_ (.device_policy devices) r o op init m = .ok st3.mem ∧
      (∀ (z : remote_subrange × remote_subrange), (zipped_segments r o)[0]? = some z →
        read_segment st1.mem z.2
          = (sequential_scan op init (read_all m r)).take z.2.distance ∧
        read_segment st3.mem z.2 = read_segment st1.mem z.2) ∧
      (∀ (idx : Nat) (z : remote_subrange × remote_subrange), 0 < idx →
        (zipped_segments r o)[idx]? = some z →
        ∃ sum, (carry_scan op st1).partial_sums[idx - 1]? = some sum ∧
          read_segment st3.mem z.2 = (read_segment st1.mem z.2).map (fun x => op x sum)) ∧
      (∀ a, (∀ (idx : Nat) (z : remote_subrange × remote_subrange), 0 < idx →
          (zipped_segments r o)[idx]? = some z → ¬ in_window z.2 a) →
        st3.mem a = st1.mem a) := by
  obtain ⟨st1, h1, -, houts1, hps1, -⟩ :=
    local_scan_phase_spec devices (zipped_segments r o) op init m hlay hne
  have hlen1 : st1.partial_sums.length = (zipped_segments r o).length := by
    rw [hps1]
    simp [segment_lasts, local_values_length, read_segments]
  obtain ⟨st3, h3, -, houts3, -, -⟩ :=
    carry_loop_spec devices op (zipped_segments r o) 0 (carry_scan op st1)
      (fun z hz => (hlay.2.1 z hz).2) hlay.2.2.2
      (by simp only [carry_scan, dpl_inclusive_scan_length]; omega)
  have hnonempty := read_segments_ne_nil m r o hlen hne
  rw [zipped_segments_fst r o hlen] at houts1
  refine ⟨st1, st3, h1, h3, ?_, ?_, ?_, ?_⟩
  · simp only [inclusive_scan_impl_, h1, h3]
  · intro z hz
    constructor
    · have hz1 : read_segment st1.mem z.2
          = local_scan_values op init 0 (read_segment m z.1) := by
        have hk := congrArg (fun l => l[0]?) houts1
        simp only [read_segments, List.getElem?_map, hz, Option.map_some',
          local_values_getElem?, Nat.zero_add] at hk
        have hr0 : r[0]? = some z.1 := by
          have := congrArg (fun l => l[0]?) (zipped_segments_fst r o hlen)
          simp only [List.getElem?_map, hz, Option.map_some'] at this
          exact this.symm
        rw [hr0] at hk
        simp only [Option.map_some'] at hk
        exact Option.some.inj hk
      rw [hz1, sequential_scan_eq_local]
      have hr0 : ∃ rest, r = z.1 :: rest := by
        have := congrArg (fun l => l[0]?) (zipped_segments_fst r o hlen)
        simp only [List.getElem?_map, hz, Option.map_some'] at this
        cases r with
        | nil => simp at this
        | cons s rest =>
          simp only [List.getElem?_cons_zero, Option.some.injEq] at this
          exact ⟨rest, by rw [this]⟩
      obtain ⟨rest, hr⟩ := hr0
      have hx0 : read_segment m z.1 ≠ [] := by
        apply hnonempty
        rw [hr]
        simp [read_segments]
      have hall : read_all m r = read_segment m z.1 ++ (read_segments m rest).flatten := by
        rw [hr]
        simp [read_all, read_segments]
      rw [hall, local_scan_values_zero_append op init _ _ hx0]
      symm
      apply List.take_left'
      rw [local_scan_values_length]
      simp only [read_segment, read_range_length]
      exact hlay.2.2.1 z (List.getElem?_mem hz)
    · have := houts3 0 z hz
      simp only [Nat.zero_add, carry_values] at this
      exact this
  · intro idx z h0 hz
    obtain ⟨j, rfl⟩ : ∃ j, idx = j + 1 := ⟨idx - 1, by omega⟩
    have hidx : j + 1 < (zipped_segments r o).length := by
      have := (List.getElem?_eq_some.mp hz).1
      exact this
    have hj : j < (carry_scan op st1).partial_sums.length := by
      simp only [carry_scan, dpl_inclusive_scan_length, hlen1]
      omega
    refine ⟨(carry_scan op st1).partial_sums[j], ?_, ?_⟩
    · rw [Nat.add_sub_cancel]
      exact List.getElem?_eq_getElem hj
    · have := houts3 (j + 1) z hz
      rw [Nat.zero_add] at this
      simp only [carry_values, List.getElem?_eq_getElem hj] at this
      exact this
  · intro a ha
    cases hzs : zipped_segments r o with
    | nil =>
      rw [hzs] at h3
      simp only [carry_loop] at h3
      injection h3 with h3
      rw [← h3]
      rfl
    | cons z rest =>
      rw [hzs] at h3 ha
      have h4 := carry_loop_zero_cons devices op z rest _ st3 h3
      rw [carry_loop_frame devices op rest 1 _ st3 h4 a]
      · rfl
      · intro w hw
        obtain ⟨i, hi⟩ := List.mem_iff_getElem?.mp hw
        exact ha (i + 1) w (by omega) (by rw [List.getElem?_cons_succ]; exact hi)

theorem carry_application_effect_witness :
    example_in.length = example_out.length ∧
    layout_ok example_devices (zipped_segments example_in example_out) ∧
    segments_nonempty (zipped_segments example_in example_out) ∧
    ∃ st1 st3, local_scan_phase example_devices (zipped_segments example_in example_out)
        left_operand (some 7) example_mem = .ok st1 ∧
      carry_loop example_devices left_operand 0 (zipped_segments example_in example_out)
        (carry_scan left_operand st1) = .ok st3 ∧
      inclusive_scan_impl_ (.device_policy example_devices) example_in example_out
        left_operand (some 7) example_mem = .ok st3.mem ∧
      (∀ (z : remote_subrange × remote_subrange),
        (zipped_segments example_in example_out)[0]? = some z →
        read_segment st1.mem z.2
          = (sequential_scan left_operand (some 7)
              (read_all example_mem example_in)).take z.2.distance ∧
        read_segment st3.mem z.2 = read_segment st1.mem z.2) ∧
      (∀ (idx : Nat) (z : remote_subrange × remote_subrange), 0 < idx →
        (zipped_segments example_in example_out)[idx]? = some z →
        ∃ sum, (carry_scan left_operand st1).partial_sums[idx - 1]? = some sum ∧
          read_segment st3.mem z.2
            = (read_segment st1.mem z.2).map (fun x => left_operand x sum)) ∧
      (∀ a, (∀ (idx : Nat) (z : remote_subrange × remote_subrange), 0 < idx →
          (zipped_segments example_in example_out)[idx]? = some z → ¬ in_window z.2 a) →
        st3.mem a = st1.mem a) :=
  ⟨rfl, by decide, by decide,
    carry_application_effect example_devices example_in example_out left_operand (some 7)
      example_mem rfl (by decide) (by decide)⟩

/-- C18: for every operator that is associative and commutative, every optional seed and
every input of non-empty, well laid out segments, the call completes and the output is the
sequential inclusive scan (from that seed) of the concatenated input.  Commutativity cannot
be dropped: for an associative operator that is not commutative the output of the call
differs from the sequential scan, because the last loop combines the carry on the right of
every element. -/
theorem inclusive_scan_assoc_comm {α : Type} [Inhabited α] (devices : List Nat)
    (r o : distributed_range) (op : α → α → α) (init : Option α) (m : Mem α)
    (hassoc : ∀ a b c, op (op a b) c = op a (op b c))
    (hcomm : ∀ a b, op a b = op b a)
    (hlen : r.length = o.length)
    (hlay : layout_ok devices (zipped_segments r o))
    (hne : segments_nonempty (zipped_segments r o)) :
    (∃ m1, inclusive_scan_impl_ (.device_policy devices) r o op init m = .ok m1 ∧
      read_all m1 o = sequential_scan op init (read_all m r)) ∧
    (∃ op2 : Int → Int → Int, (∀ a b c, op2 (op2 a b) c = op2 a (op2 b c)) ∧
      ¬ (∀ a b, op2 a b = op2 b a) ∧
      (inclusive_scan_impl_ (.device_policy example_devices) example_in example_out op2 none
          example_mem).map (fun m1 => read_all m1 example_out)
        ≠ .ok (sequential_scan op2 none (read_all example_mem example_in))) := by
  constructor
  · obtain ⟨m1, h1, -, hout⟩ :=
      inclusive_scan_impl_values devices r o op init m hlen hlay hne
    refine ⟨m1, h1, ?_⟩
    unfold read_all
    rw [hout]
    exact stitched_values_flatten op hassoc hcomm init _
      (read_segments_ne_nil m r o hlen hne)
  · refine ⟨left_operand, fun _ _ _ => rfl, ?_, ?_⟩
    · intro h
      have := h 0 1
      revert this
      decide
    · have hcode : (inclusive_scan_impl_ (.device_policy example_devices) example_in
          example_out left_operand none example_mem).map (fun m1 => read_all m1 example_out)
          = .ok [1, 1, 1, 1, 5, 5, 5, 5] := rfl
      have hseq : sequential_scan left_operand none (read_all example_mem example_in)
          = [1, 1, 1, 1, 1, 1, 1, 1] := by decide
      rw [hcode, hseq]
      intro h
      injection h with h
      revert h
      decide

theorem inclusive_scan_assoc_comm_witness :
    (∀ a b c : Int, a * b * c = a * (b * c)) ∧ (∀ a b : Int, a * b = b * a) ∧
    example_in.length = example_out.length ∧
    layout_ok example_devices (zipped_segments example_in example_out) ∧
    segments_nonempty (zipped_segments example_in example_out) ∧
    ((∃ m1, inclusive_scan_impl_ (.device_policy example_devices) example_in example_out
        (fun a b : Int => a * b) (some 2) example_mem = .ok m1 ∧
      read_all m1 example_out
        = sequential_scan (fun a b : Int => a * b) (some 2)
            (read_all example_mem example_in)) ∧
    (∃ op2 : Int → Int → Int, (∀ a b c, op2 (op2 a b) c = op2 a (op2 b c)) ∧
      ¬ (∀ a b, op2 a b = op2 b a) ∧
      (inclusive_scan_impl_ (.device_policy example_devices) example_in example_out op2 none
          example_mem).map (fun m1 => read_all m1 example_out)
        ≠ .ok (sequential_scan op2 none (read_all example_mem example_in)))) :=
  ⟨fun a b c => mul_assoc a b c, fun a b => mul_comm a b, rfl, by decide, by decide,
    inclusive_scan_assoc_comm example_devices example_in example_out
      (fun a b : Int => a * b) (some 2) example_mem (fun a b c => mul_assoc a b c)
      (fun a b => mul_comm a b) rfl (by decide) (by decide)⟩

/-! ## Order of the tasks of the first loop -/

theorem separate_segments_symm (a b : remote_subrange × remote_subrange)
    (h : separate_segments a b) : separate_segments b a :=
  ⟨disjoint_segments_symm _ _ h.1, h.2.2, h.2.1⟩

theorem local_scan_loop_eq_schedule {α : Type} (devices : List Nat) (op : α → α → α)
    (init : Option α) (zs : List (remote_subrange × remote_subrange)) (k : Nat)
    (st : scan_state α) :
    local_scan_loop devices op init k zs st
      = local_scan_schedule devices op init (zs.enumFrom k) st := by
  induction zs generalizing k st with
  | nil => rfl
  | cons z rest ih =>
    simp only [local_scan_loop, List.enumFrom_cons, local_scan_schedule]
    cases local_scan_step devices op init k z st with
    | error e => rfl
    | ok st1 => exact ih (k + 1) st1

theorem mem_enumFrom_segments (zs : List (remote_subrange × remote_subrange)) (k : Nat)
    (t : Nat × (remote_subrange × remote_subrange)) (h : t ∈ zs.enumFrom k) :
    t.2 ∈ zs ∧ k ≤ t.1 ∧ t.1 < k + zs.length := by
  obtain ⟨i, x⟩ := t
  obtain ⟨h1, h2, h3⟩ := List.mem_enumFrom h
  refine ⟨?_, h1, h2⟩
  rw [h3]
  exact List.getElem_mem _

theorem pairwise_enumFrom (zs : List (remote_subrange × remote_subrange)) (k : Nat)
    (h : zs.Pairwise separate_segments) :
    (zs.enumFrom k).Pairwise (fun a b => separate_segments a.2 b.2 ∧ a.1 ≠ b.1) := by
  induction zs generalizing k with
  | nil => exact List.Pairwise.nil
  | cons z rest ih =>
    rw [List.pairwise_cons] at h
    rw [List.enumFrom_cons, List.pairwise_cons]
    refine ⟨?_, ih (k + 1) h.2⟩
    intro t ht
    obtain ⟨h1, h2, -⟩ := mem_enumFrom_segments rest (k + 1) t ht
    exact ⟨h.1 t.2 h1, by simp only [ne_eq]; omega⟩

theorem read_segment_eq_pointwise {α : Type} (m1 m2 : Mem α) (s : remote_subrange)
    (h : read_segment m1 s = read_segment m2 s) (a : Nat) (ha : in_window s a) :
    m1 a = m2 a := by
  unfold in_window at ha
  have hi : a - s.begin_ < s.distance := by
    unfold remote_subrange.distance
    omega
  have h1 := read_range_getElem? m1 s.begin_ s.distance (a - s.begin_) hi
  have h2 := read_range_getElem? m2 s.begin_ s.distance (a - s.begin_) hi
  unfold read_segment at h
  rw [h, h2] at h1
  have h3 := Option.some.inj h1
  rw [show s.begin_ + (a - s.begin_) = a by omega] at h3
  exact h3.symm

/-- The tasks of the first loop, run in any order in which no two tasks share a segment
index or interfere, all complete; every output segment then holds the local scan of its
input segment and every task's slot of `partial_sums` the last value of that scan. -/
theorem local_scan_schedule_spec {α : Type} [Inhabited α] (devices : List Nat)
    (op : α → α → α) (init : Option α)
    (ts : List (Nat × (remote_subrange × remote_subrange))) (st : scan_state α)
    (hr : ∀ t ∈ ts, t.2.1.rank < devices.length)
    (hpos : ∀ t ∈ ts, 0 < t.2.1.distance)
    (hsz : ∀ t ∈ ts, t.2.1.distance = t.2.2.distance)
    (hid : ∀ t ∈ ts, t.1 < st.partial_sums.length)
    (hsep : ts.Pairwise (fun a b => separate_segments a.2 b.2 ∧ a.1 ≠ b.1)) :
    ∃ st1, local_scan_schedule devices op init ts st = .ok st1 ∧
      (∀ a, (∀ t ∈ ts, ¬ in_window t.2.2 a) → st1.mem a = st.mem a) ∧
      (∀ t ∈ ts, read_segment st1.mem t.2.2
          = local_scan_values op init t.1 (read_segment st.mem t.2.1)) ∧
      st1.partial_sums.length = st.partial_sums.length ∧
      (∀ t ∈ ts, st1.partial_sums[t.1]?
          = some (last_value (local_scan_values op init t.1 (read_segment st.mem t.2.1)))) ∧
      (∀ j, (∀ t ∈ ts, t.1 ≠ j) → st1.partial_sums[j]? = st.partial_sums[j]?) := by
  induction ts generalizing st with
  | nil =>
    refine ⟨st, rfl, fun _ _ => rfl, ?_, rfl, ?_, fun _ _ => rfl⟩
    · intro t ht; simp at ht
    · intro t ht; simp at ht
  | cons t0 rest ih =>
    have h_r := hr t0 (List.mem_cons_self _ _)
    have h_pos := hpos t0 (List.mem_cons_self _ _)
    have h_sz := hsz t0 (List.mem_cons_self _ _)
    have h_id := hid t0 (List.mem_cons_self _ _)
    rw [List.pairwise_cons] at hsep
    obtain ⟨hsep0, hsep_rest⟩ := hsep
    have hstep := local_scan_step_ok devices op init t0.1 t0.2 st h_r h_pos h_sz h_id
    have hlen : (local_scan_values op init t0.1 (read_segment st.mem t0.2.1)).length
        = t0.2.2.distance := by
      rw [local_scan_values_length, ← h_sz]; exact read_range_length _ _ _
    obtain ⟨st1, hrun, hframe, houts, hpl, hpv, hpo⟩ :=
      ih
        { mem := write_range st.mem t0.2.2.begin_
            (local_scan_values op init t0.1 (read_segment st.mem t0.2.1))
          partial_sums := st.partial_sums.set t0.1
            (last_value (local_scan_values op init t0.1 (read_segment st.mem t0.2.1)))
          events := st.events ++ [t0.1] }
        (fun w hw => hr w (List.mem_cons_of_mem _ hw))
        (fun w hw => hpos w (List.mem_cons_of_mem _ hw))
        (fun w hw => hsz w (List.mem_cons_of_mem _ hw))
        (fun w hw => by
          simp only [List.length_set]
          exact hid w (List.mem_cons_of_mem _ hw))
        hsep_rest
    dsimp only at hframe houts hpl hpv hpo
    refine ⟨st1, ?_, ?_, ?_, ?_, ?_, ?_⟩
    · simp only [local_scan_schedule, hstep]
      exact hrun
    · intro a ha
      rw [hframe a (fun w hw => ha w (List.mem_cons_of_mem _ hw))]
      exact write_range_frame st.mem t0.2.2 _ hlen a (ha t0 (List.mem_cons_self _ _))
    · intro t ht
      rcases List.mem_cons.mp ht with rfl | ht1
      · rw [read_segment_frame st1.mem _ t.2.2 (fun a ha => hframe a (fun w hw =>
          not_in_window_of_disjoint t.2.2 w.2.2 a (hsep0 w hw).1.1 ha))]
        exact read_segment_write_same st.mem t.2.2 _ hlen
      · rw [houts t ht1,
          read_segment_write_disjoint st.mem t0.2.2 t.2.1 _ hlen (hsep0 t ht1).1.2.1]
    · rw [hpl]; simp
    · intro t ht
      rcases List.mem_cons.mp ht with rfl | ht1
      · rw [hpo t.1 (fun w hw => Ne.symm (hsep0 w hw).2)]
        rw [List.getElem?_set_self h_id]
      · have := hpv t ht1
        rw [read_segment_write_disjoint st.mem t0.2.2 t.2.1 _ hlen (hsep0 t ht1).1.2.1]
          at this
        exact this
    · intro j hj
      rw [hpo j (fun w hw => hj w (List.mem_cons_of_mem _ hw))]
      rw [List.getElem?_set_ne (hj t0 (List.mem_cons_self _ _))]

/-- C16: on non-empty, well laid out segments the first loop does not depend on the order
in which its per-segment tasks run.  The loop in index order is the schedule of the tasks
`(0, segs 0), (1, segs 1), …`; every permutation of these tasks, run from the same initial
state, completes with the same memory (hence the same output segments) and the same
`partial_sums` vector. -/
theorem local_scan_order_independent {α : Type} [Inhabited α] (devices : List Nat)
    (r o : distributed_range) (op : α → α → α) (init : Option α) (m : Mem α)
    (ts : List (Nat × (remote_subrange × remote_subrange)))
    (hperm : ts.Perm ((zipped_segments r o).enumFrom 0))
    (hlay : layout_ok devices (zipped_segments r o))
    (hne : segments_nonempty (zipped_segments r o)) :
    ∃ st1 st2,
      local_scan_phase devices (zipped_segments r o) op init m = .ok st1 ∧
      local_scan_schedule devices op init ((zipped_segments r o).enumFrom 0)
        (initial_state (zipped_segments r o) m) = .ok st1 ∧
      local_scan_schedule devices op init ts (initial_state (zipped_segments r o) m)
        = .ok st2 ∧
      st2.mem = st1.mem ∧
      st2.partial_sums = st1.partial_sums ∧
      read_segments st2.mem ((zipped_segments r o).map Prod.snd)
        = read_segments st1.mem ((zipped_segments r o).map Prod.snd) := by
  obtain ⟨hdev, hranks, hsizes, hsep⟩ := hlay
  have hE : ∀ t ∈ (zipped_segments r o).enumFrom 0,
      t.2 ∈ zipped_segments r o ∧ t.1 < (zipped_segments r o).length := by
    intro t ht
    obtain ⟨h1, -, h3⟩ := mem_enumFrom_segments _ 0 t ht
    exact ⟨h1, by omega⟩
  have hsepE := pairwise_enumFrom (zipped_segments r o) 0 hsep
  have hsymm : ∀ {a b : Nat × (remote_subrange × remote_subrange)},
      (separate_segments a.2 b.2 ∧ a.1 ≠ b.1) → (separate_segments b.2 a.2 ∧ b.1 ≠ a.1) :=
    fun h => ⟨separate_segments_symm _ _ h.1, Ne.symm h.2⟩
  have hsepT := hperm.symm.pairwise hsepE hsymm
  have hT : ∀ t ∈ ts, t ∈ (zipped_segments r o).enumFrom 0 := fun t ht => hperm.mem_iff.mp ht
  have hlen0 : (initial_state (zipped_segments r o) m).partial_sums.length
      = (zipped_segments r o).length := by simp [initial_state]
  obtain ⟨st1, hrun1, hframe1, houts1, -, hpv1, hpo1⟩ :=
    local_scan_schedule_spec devices op init ((zipped_segments r o).enumFrom 0)
      (initial_state (zipped_segments r o) m)
      (fun t ht => (hranks t.2 (hE t ht).1).1) (fun t ht => hne t.2 (hE t ht).1)
      (fun t ht => hsizes t.2 (hE t ht).1) (fun t ht => by rw [hlen0]; exact (hE t ht).2)
      hsepE
  obtain ⟨st2, hrun2, hframe2, houts2, hpl2, hpv2, hpo2⟩ :=
    local_scan_schedule_spec devices op init ts (initial_state (zipped_segments r o) m)
      (fun t ht => (hranks t.2 (hE t (hT t ht)).1).1) (fun t ht => hne t.2 (hE t (hT t ht)).1)
      (fun t ht => hsizes t.2 (hE t (hT t ht)).1)
      (fun t ht => by rw [hlen0]; exact (hE t (hT t ht)).2) hsepT
  have hmem : st2.mem = st1.mem := by
    funext a
    by_cases h : ∃ t ∈ (zipped_segments r o).enumFrom 0, in_window t.2.2 a
    · obtain ⟨t, ht, ha⟩ := h
      apply read_segment_eq_pointwise st2.mem st1.mem t.2.2 _ a ha
      rw [houts1 t ht, houts2 t (hperm.mem_iff.mpr ht)]
    · have hnot : ∀ t ∈ (zipped_segments r o).enumFrom 0, ¬ in_window t.2.2 a :=
        fun t ht hin => h ⟨t, ht, hin⟩
      rw [hframe1 a hnot, hframe2 a (fun t ht => hnot t (hT t ht))]
  have hps : st2.partial_sums = st1.partial_sums := by
    apply List.ext_getElem?
    intro j
    by_cases h : ∃ t ∈ (zipped_segments r o).enumFrom 0, t.1 = j
    · obtain ⟨t, ht, rfl⟩ := h
      rw [hpv1 t ht, hpv2 t (hperm.mem_iff.mpr ht)]
    · have hnot : ∀ t ∈ (zipped_segments r o).enumFrom 0, t.1 ≠ j :=
        fun t ht heq => h ⟨t, ht, heq⟩
      rw [hpo1 j hnot, hpo2 j (fun t ht => hnot t (hT t ht))]
  refine ⟨st1, st2, ?_, hrun1, hrun2, hmem, hps, by rw [hmem]⟩
  unfold local_scan_phase
  rw [List.getElem?_eq_getElem hdev]
  dsimp only
  rw [local_scan_loop_eq_schedule]
  exact hrun1

theorem local_scan_order_independent_witness :
    example_tasks_reversed.Perm ((zipped_segments example_in example_out).enumFrom 0) ∧
    layout_ok example_devices (zipped_segments example_in example_out) ∧
    segments_nonempty (zipped_segments example_in example_out) ∧
    ∃ st1 st2,
      local_scan_phase example_devices (zipped_segments example_in example_out)
        left_operand (some 7) example_mem = .ok st1 ∧
      local_scan_schedule example_devices left_operand (some 7)
        ((zipped_segments example_in example_out).enumFrom 0)
        (initial_state (zipped_segments example_in example_out) example_mem) = .ok st1 ∧
      local_scan_schedule example_devices left_operand (some 7) example_tasks_reversed
        (initial_state (zipped_segments example_in example_out) example_mem) = .ok st2 ∧
      st2.mem = st1.mem ∧
      st2.partial_sums = st1.partial_sums ∧
      read_segments st2.mem ((zipped_segments example_in example_out).map Prod.snd)
        = read_segments st1.mem ((zipped_segments example_in example_out).map Prod.snd) :=
  ⟨List.Perm.swap _ _ _, by decide, by decide,
    local_scan_order_independent example_devices example_in example_out left_operand
      (some 7) example_mem example_tasks_reversed (List.Perm.swap _ _ _) (by decide)
      (by decide)⟩

end shp
